import Mathlib

/-!
Verification of the ring-buffer subsystem of the starterkit repository.

The development shallowly embeds three C components:

* the circular index manager `cidx` (cidx.h, single-file header + source);
* the virtual-memory mirrored circular byte buffer `cbuf` (cbuf.h), of which
  the pure size/offset arithmetic is embedded (the mmap plumbing is OS state);
* the console line log `console_write` (console.c) together with the
  ring-buffer access manager `xyz_rbam` (xyz.c) it is built on.

C `size_t` values are modelled as `Nat`; wherever the C arithmetic can wrap
at 2^64 the model applies `% 2^64` explicitly (`W64`).  `u32` quantities in
the console (lengths, positions) stay well below 2^32 in every state the
theorems reach, so they are modelled as plain `Nat`.
-/

/-- 2^64, the modulus of C `size_t` arithmetic on the targeted platforms. -/
def W64 : Nat := 2 ^ 64

-- ==========================================================================
-- cidx: circular index for a single reader/writer (cidx.h)
-- ==========================================================================

/-- The `cidx_s` struct (cidx.h).  The `ary` payload pointer is modelled as a
base address (a `Nat`); the atomic qualifier on `fre` disappears in this
sequential embedding. -/
structure cidx_s where
  wr : Nat
  rd : Nat
  fre : Nat
  max : Nat
  esz : Nat
  ary : Nat
deriving DecidableEq, Repr

/-- `cidx_init`: fails (leaving the struct untouched) if `max < 2`, otherwise
initializes all fields. -/
def cidx_init (ci : cidx_s) (esz ary max : Nat) : Bool × cidx_s :=
  if max < 2 then (false, ci)
  else (true, { wr := 0, rd := 0, fre := max, max := max, esz := esz, ary := ary })

/-- `cidx_isfull`: the array is full when no free elements remain. -/
def cidx_isfull (ci : cidx_s) : Bool := ci.fre == 0

/-- `cidx_isempty`: the array is empty when all elements are free. -/
def cidx_isempty (ci : cidx_s) : Bool := ci.fre == ci.max

/-- `cidx_used`: number of elements available for reading. -/
def cidx_used (ci : cidx_s) : Nat := ci.max - ci.fre

/-- `cidx_free`: number of elements available for writing. -/
def cidx_free (ci : cidx_s) : Nat := ci.fre

/-- `cidx_next`: pure successor index with roll-over. -/
def cidx_next (ci : cidx_s) (idx : Nat) : Nat := (idx + 1) % ci.max

/-- `cidx_prev`: pure predecessor index with roll-over. -/
def cidx_prev (ci : cidx_s) (idx : Nat) : Nat :=
  if 0 = idx then ci.max - 1 else idx - 1

/-- `cidx_re`: address of the current read element (`ary + rd*esz`). -/
def cidx_re (ci : cidx_s) : Nat := ci.ary + ci.rd * ci.esz

/-- `cidx_we`: address of the current write element (`ary + wr*esz`). -/
def cidx_we (ci : cidx_s) : Nat := ci.ary + ci.wr * ci.esz

/-- `cidx_commit`: returns false without touching state when full, otherwise
advances `wr` and then decrements `fre` (source order: the `wr` store on the
line before the `atomic_fetch_sub`).  The `wr + 1` sum is `size_t`
arithmetic, hence the explicit `% W64`. -/
def cidx_commit (ci : cidx_s) : Bool × cidx_s :=
  if ci.fre = 0 then (false, ci)
  else (true, { ci with wr := ((ci.wr + 1) % W64) % ci.max, fre := ci.fre - 1 })

/-- `cidx_consume`: returns false without touching state when empty, otherwise
advances `rd` and then increments `fre` (both sums in `size_t`). -/
def cidx_consume (ci : cidx_s) : Bool × cidx_s :=
  if ci.max = ci.fre then (false, ci)
  else (true, { ci with rd := ((ci.rd + 1) % W64) % ci.max, fre := (ci.fre + 1) % W64 })

/-- `cidx_drain`: exchanges `fre` with `max`, computes the number drained from
the prior value, and advances `rd` by that amount modulo `max`.  The `max -
fre` subtraction is modelled with truncated `Nat` subtraction; it agrees with
the C unsigned subtraction whenever `fre ≤ max`, which holds in every state
reachable from `cidx_init`. -/
def cidx_drain (ci : cidx_s) : Nat × cidx_s :=
  let drained := ci.max - ci.fre
  (drained, { ci with fre := ci.max, rd := ((ci.rd + drained) % W64) % ci.max })

/-- Tags for the stores to the fields shared across the reader/writer
boundary, used to record the program order of those stores. -/
inductive FieldTag where
  | wrIdx : FieldTag
  | rdIdx : FieldTag
  | fre : FieldTag
deriving DecidableEq, Repr

/-- Program order of the shared-field stores executed by `cidx_commit`
(cidx.h: the `ci->wr = ...` assignment precedes `atomic_fetch_sub(&ci->fre, 1)`;
nothing is stored on the full early-return path). -/
def cidx_commit_updates (ci : cidx_s) : List FieldTag :=
  if ci.fre = 0 then [] else [FieldTag.wrIdx, FieldTag.fre]

/-- Program order of the shared-field stores executed by `cidx_consume`
(cidx.h: the `ci->rd = ...` assignment precedes `atomic_fetch_add(&ci->fre, 1)`). -/
def cidx_consume_updates (ci : cidx_s) : List FieldTag :=
  if ci.max = ci.fre then [] else [FieldTag.rdIdx, FieldTag.fre]

/-- Operations of the index manager exercised by the invariant claim. -/
inductive CidxOp where
  | commit : CidxOp
  | consume : CidxOp
  | drain : CidxOp
deriving DecidableEq, Repr

/-- Apply one operation to a `cidx_s`, discarding the returned value. -/
def cidx_step (ci : cidx_s) (op : CidxOp) : cidx_s :=
  match op with
  | CidxOp.commit => (cidx_commit ci).2
  | CidxOp.consume => (cidx_consume ci).2
  | CidxOp.drain => (cidx_drain ci).2

/-- Run a sequence of operations on a `cidx_s`. -/
def cidx_run (ci : cidx_s) (ops : List CidxOp) : cidx_s :=
  ops.foldl cidx_step ci

-- ==========================================================================
-- cbuf: VM-mirrored circular byte buffer (cbuf.h)
-- ==========================================================================

/-- The `cbuf_s` struct (cbuf.h).  The `buf` pointer, the `lasterr` platform
error code and the `_winternal` handle belong to the OS mapping machinery and
are outside this embedding; the index/size arithmetic is complete. -/
structure cbuf_s where
  wr : Nat
  rd : Nat
  fre : Nat
  align : Nat
  amask : Nat
  max : Nat
deriving DecidableEq, Repr

/-- The alignment adjustment at the top of `cbuf_commit`/`cbuf_consume`
(identical in both): save the alignment error `n & amask`, force alignment
with `n &= ~amask` (the complement of `amask` in 64 bits is
`(W64 - 1) - amask`), and add `align` when there was an error.  The final
`+ align` is `size_t` addition, hence the explicit `% W64`. -/
def cbuf_align_adjust (cb : cbuf_s) (n : Nat) : Nat :=
  if 0 < cb.align then
    let aerr := n &&& cb.amask
    let n2 := n &&& ((W64 - 1) - cb.amask)
    if aerr ≠ 0 then (n2 + cb.align) % W64 else n2
  else n

/-- `cbuf_commit`: align-adjust `n`, clamp it to `fre`, subtract the clamped
amount from `fre`, advance `wr` by it modulo `max`, and return it. -/
def cbuf_commit (cb : cbuf_s) (n0 : Nat) : cbuf_s × Nat :=
  let n1 := cbuf_align_adjust cb n0
  let n := if n1 > cb.fre then cb.fre else n1
  ({ cb with fre := cb.fre - n, wr := ((cb.wr + n) % W64) % cb.max }, n)

/-- `cbuf_consume`: align-adjust `n`, clamp it to `used = max - fre`, add the
clamped amount to `fre`, advance `rd` by it modulo `max`, and return it.
`max - fre` is the C unsigned subtraction, modelled by `Nat` subtraction
(they agree whenever `fre ≤ max`, which holds for every created buffer). -/
def cbuf_consume (cb : cbuf_s) (n0 : Nat) : cbuf_s × Nat :=
  let n1 := cbuf_align_adjust cb n0
  let used := cb.max - cb.fre
  let n := if n1 > used then used else n1
  ({ cb with fre := (cb.fre + n) % W64, rd := ((cb.rd + n) % W64) % cb.max }, n)

/-- `cbuf_drain`: exchange `fre` with `max`, advance `rd` by the drained
amount modulo `max`, and return the drained amount. -/
def cbuf_drain (cb : cbuf_s) : cbuf_s × Nat :=
  let drained := cb.max - cb.fre
  ({ cb with fre := cb.max, rd := ((cb.rd + drained) % W64) % cb.max }, drained)

/-- `cbuf_isfull`. -/
def cbuf_isfull (cb : cbuf_s) : Bool := cb.fre == 0

/-- `cbuf_isempty`. -/
def cbuf_isempty (cb : cbuf_s) : Bool := cb.fre == cb.max

/-- `cbuf_used`. -/
def cbuf_used (cb : cbuf_s) : Nat := cb.max - cb.fre

/-- `cbuf_free`. -/
def cbuf_free (cb : cbuf_s) : Nat := cb.fre

/-- `cbuf_rb`: offset of the read pointer from the buffer base. -/
def cbuf_rb (cb : cbuf_s) : Nat := cb.rd

/-- `cbuf_wb`: offset of the write pointer from the buffer base. -/
def cbuf_wb (cb : cbuf_s) : Nat := cb.wr

/-- The buffer-size computation at the top of `cbuf_create`: round the
minimum size up to a multiple of the page size (adding one page when the
masked size is below one page or `minsize` is not page-aligned; the sum is
`size_t` arithmetic), then halve the size if its most-significant bit is set
(`bufsize >> ((sizeof(bufsize) * 8) - 1)` nonzero) so that doubling it for
the two mappings cannot overflow.  The remainder of `cbuf_create` performs
the OS mapping calls and the aliasing self-test, which have no pure
embedding. -/
def cbuf_bufsize (minsize pagesize : Nat) : Nat :=
  let b0 := minsize &&& ((W64 - 1) - (pagesize - 1))
  let b1 := if b0 < pagesize ∨ minsize % pagesize ≠ 0 then (b0 + pagesize) % W64 else b0
  if b1 >>> (8 * 8 - 1) ≠ 0 then b1 / 2 else b1

/-- Program order of the shared-field stores executed by `cbuf_commit`
(cbuf.h: `atomic_fetch_sub(&cb->fre, n)` executes before the
`cb->wr = (cb->wr + n) % cb->max` assignment, on every path). -/
def cbuf_commit_updates (_cb : cbuf_s) (_n0 : Nat) : List FieldTag :=
  [FieldTag.fre, FieldTag.wrIdx]

/-- Program order of the shared-field stores executed by `cbuf_consume`
(cbuf.h: `atomic_fetch_add(&cb->fre, n)` executes before the
`cb->rd = (cb->rd + n) % cb->max` assignment, on every path). -/
def cbuf_consume_updates (_cb : cbuf_s) (_n0 : Nat) : List FieldTag :=
  [FieldTag.fre, FieldTag.rdIdx]

-- ==========================================================================
-- Specification-side functions (transcribed from the claim wording, for
-- refinement comparisons only; the `cbuf_*` functions above are the code)
-- ==========================================================================

/-- Specification-side round-up of `n` to the next multiple of `p`. -/
def roundUpSpec (n p : Nat) : Nat := if n % p = 0 then n else n - n % p + p

/-- Specification-side reading of the C5 sentence: requested byte counts are
rounded up to the configured alignment (no adjustment when `align = 0`). -/
def alignUpSpec (n align : Nat) : Nat := if align = 0 then n else roundUpSpec n align

/-- Specification-side reading of the C9 sentence: the selected buffer size
is `minSize` rounded up to the next multiple of the page size (minimum one
page), halved when its most-significant (63rd) bit is set. -/
def cbuf_sizeSpec (minsize p : Nat) : Nat :=
  let s := max p (roundUpSpec minsize p)
  if 2 ^ 63 ≤ s then s / 2 else s

-- ==========================================================================
-- xyz_rbam: ring-buffer access manager (xyz.c), sentinel "next" variant,
-- full at dim - 1 elements
-- ==========================================================================

/-- One console line descriptor (`consline_s` in program.h): start position
and length (including the appended terminator) in the byte store. -/
structure consline where
  pos : Nat
  len : Nat
deriving DecidableEq, Repr

/-- The `xyz_rbam` struct: read/write indices, the sentinel `next` index,
the element count `dim`, and the derived statistics `used`/`free`. -/
structure xyz_rbam where
  rd : Nat
  wr : Nat
  next : Nat
  dim : Nat
  used : Nat
  free : Nat
deriving DecidableEq, Repr

/-- `XYZ_RBAM_FULL`: the macro body is not in the snapshot; it is the
full-test used by console.c, identical to `xyz_rbam_is_full` in the sibling
xyz.c variant: `next == rd`. -/
def XYZ_RBAM_FULL (r : xyz_rbam) : Bool := r.next == r.rd

/-- `XYZ_RBAM_FREE`: the not-full test guarding `xyz_rbam_write`:
`next != rd`. -/
def XYZ_RBAM_FREE (r : xyz_rbam) : Bool := r.next != r.rd

/-- `XYZ_RBAM_MORE`: the not-empty test, identical to the negation of
`xyz_rbam_is_empty` in the sibling xyz.c variant: `rd != wr`. -/
def XYZ_RBAM_MORE (r : xyz_rbam) : Bool := r.rd != r.wr

/-- `xyz_rbam_init` (xyz.c): fails for `dim < 2`, otherwise
`rd = wr = 0`, `next = 1`, `used = 0`, `free = dim - 1`. -/
def xyz_rbam_init (r : xyz_rbam) (dim : Nat) : Bool × xyz_rbam :=
  if dim < 2 then (false, r)
  else (true, { rd := 0, wr := 0, next := 1, dim := dim, used := 0, free := dim - 1 })

/-- `xyz_rbam_write` (xyz.c): when not full, publish the slot at `next` by
moving `wr` onto it and advancing `next` with roll-over; in all cases
recompute the `used`/`free` statistics. -/
def xyz_rbam_write (r : xyz_rbam) : xyz_rbam :=
  let r1 := if XYZ_RBAM_FREE r then
      { r with wr := r.next, next := if r.next ≥ r.dim - 1 then 0 else r.next + 1 }
    else r
  let used := if r1.wr ≥ r1.rd then r1.wr - r1.rd else r1.dim - r1.rd + r1.wr
  { r1 with used := used, free := r1.dim - used - 1 }

/-- `xyz_rbam_read` (xyz.c): when not empty, advance `rd` with roll-over; in
all cases recompute the `used`/`free` statistics. -/
def xyz_rbam_read (r : xyz_rbam) : xyz_rbam :=
  let r1 := if XYZ_RBAM_MORE r then
      { r with rd := if r.rd ≥ r.dim - 1 then 0 else r.rd + 1 }
    else r
  let used := if r1.wr ≥ r1.rd then r1.wr - r1.rd else r1.dim - r1.rd + r1.wr
  { r1 with used := used, free := r1.dim - used - 1 }

-- ==========================================================================
-- console_write (console.c): the LineLog
-- ==========================================================================

/-- The console state (the `cons` member of `progdata_s`): the byte store
`buf` (an unbounded map, of which only offsets below `bufdim` are used), its
dimension, the line-descriptor array `linelist` (likewise a map), the rbam
managing it, and the lock-failure diagnostic counter.  The `out` callback
and the SDL mutex handle live outside the embedding; the two lock
acquisition outcomes are passed to `console_write` as booleans instead.
The `u32` positions and lengths stay far below 2^32 (they are bounded by
`bufdim + maxline`), so they are plain `Nat` here. -/
structure cons_s where
  buf : Nat → Nat
  bufdim : Nat
  linelist : Nat → consline
  rbam : xyz_rbam
  lockfailures : Nat

/-- Pointwise update of the line-descriptor array. -/
def updFn (f : Nat → consline) (i : Nat) (v : consline) : Nat → consline :=
  fun j => if j = i then v else f j

/-- Pointwise update of the byte store. -/
def updByte (f : Nat → Nat) (i v : Nat) : Nat → Nat :=
  fun j => if j = i then v else f j

/-- `memcpy(buf + dpos, text + off, n)` for distinct arrays. -/
def memcpyBytes (dst : Nat → Nat) (dpos : Nat) (src : Nat → Nat) (off n : Nat) :
    Nat → Nat :=
  fun j => if dpos ≤ j ∧ j < dpos + n then src (off + (j - dpos)) else dst j

/-- The inner scanning loop of `console_write` (console.c): starting at
`idx` with `linelen` bytes consumed so far, scan until `maxline` bytes, an
embedded terminator (which truncates `len` to the current index), a newline,
or a carriage return (a CRLF pair is consumed whole when the LF is still
inside `len`).  Returns the updated `(len, idx, linelen)`. -/
def cons_scan (text : Nat → Nat) (maxline len idx linelen : Nat) :
    Nat × Nat × Nat :=
  if linelen < maxline then
    if text idx = 0 then (idx, idx, linelen)
    else if text idx = 10 ∨ text idx = 13 then
      (if idx + 1 < len ∧ text idx = 13 ∧ text (idx + 1) = 10 then
        (len, idx + 2, linelen + 2)
      else (len, idx + 1, linelen + 1))
    else cons_scan text maxline len (idx + 1) (linelen + 1)
  else (len, idx, linelen)
termination_by maxline - linelen

/-- The first eviction loop of `console_write`: while the oldest live line
starts at or after the pending line position and before its end, and the
ring holds more lines, consume the oldest line.  The C `while` loop is
translated with explicit fuel; every caller passes `dim`, which a lemma
shows is enough for the loop to reach its negated condition from any state
with in-range indices (in a state with out-of-range indices the C loop
would not terminate). -/
def evict1 (list : Nat → consline) (newpos : Nat) (r : xyz_rbam) (fuel : Nat) :
    xyz_rbam :=
  match fuel with
  | 0 => r
  | fuel + 1 =>
    if (list r.wr).pos ≤ (list r.rd).pos ∧ (list r.rd).pos < newpos ∧
        XYZ_RBAM_MORE r = true then
      evict1 list newpos (xyz_rbam_read r) fuel
    else r

/-- The second eviction loop of `console_write` (after restarting the line
at position 0): while the oldest live line starts before the new end and
the ring holds more lines, consume the oldest line.  Fuel as in `evict1`. -/
def evict2 (list : Nat → consline) (newpos : Nat) (r : xyz_rbam) (fuel : Nat) :
    xyz_rbam :=
  match fuel with
  | 0 => r
  | fuel + 1 =>
    if (list r.rd).pos < newpos ∧ XYZ_RBAM_MORE r = true then
      evict2 list newpos (xyz_rbam_read r) fuel
    else r

/-- The per-line storing step of `console_write` (console.c lines 170-232):
add the terminator byte to the length; skip the line if it cannot fit the
byte store at all; otherwise make room in the ring if full, compute the end
position, clear colliding top lines, restart at position 0 when the line
would run past the end of the byte store (clearing lines it then collides
with), record the descriptor, copy the line data, write the terminator,
publish the line, make room again if now full, and stage the next slot's
start position. -/
def cons_store (pd : cons_s) (text : Nat → Nat) (start_idx linelen0 : Nat) :
    cons_s :=
  let linelen := linelen0 + 1
  if linelen > pd.bufdim then pd
  else
    let r1 := if XYZ_RBAM_FULL pd.rbam then xyz_rbam_read pd.rbam else pd.rbam
    let newpos0 := (pd.linelist r1.wr).pos + linelen
    let r2 := evict1 pd.linelist newpos0 r1 r1.dim
    let list1 := if newpos0 > pd.bufdim then
        updFn pd.linelist r2.wr { pos := 0, len := (pd.linelist r2.wr).len }
      else pd.linelist
    let newpos := if newpos0 > pd.bufdim then linelen else newpos0
    let r3 := if newpos0 > pd.bufdim then evict2 list1 newpos r2 r2.dim else r2
    let list2 := updFn list1 r3.wr { pos := (list1 r3.wr).pos, len := linelen }
    let buf1 := memcpyBytes pd.buf (list2 r3.wr).pos text start_idx (linelen - 1)
    let buf2 := updByte buf1 (newpos - 1) 0
    let r4 := xyz_rbam_write r3
    let r5 := if XYZ_RBAM_FULL r4 then xyz_rbam_read r4 else r4
    let list3 := updFn list2 r5.wr { pos := newpos, len := 0 }
    { pd with buf := buf2, linelist := list3, rbam := r5 }

/-- The outer line loop of `console_write`: while input remains, scan one
segment and store it.  The C loop always terminates because each iteration
either advances `idx` or truncates `len` to `idx` (this needs
`maxline ≥ 1`; with `maxline = 0` the C loop would never terminate, which
the model renders as the unreachable early-exit branch). -/
def cons_loop (pd : cons_s) (text : Nat → Nat) (maxline idx len : Nat) :
    cons_s × Nat :=
  if idx < len then
    let sc := cons_scan text maxline len idx 0
    let pd1 := cons_store pd text idx sc.2.2
    if h2 : sc.1 - sc.2.1 < len - idx then cons_loop pd1 text maxline sc.2.1 sc.1
    else (pd1, sc.1)
  else (pd, len)
termination_by len - idx
decreasing_by exact h2

/-- `console_write` (console.c, the `u32` overload): return 0 for empty or
terminator-leading input; clamp the length to four maximum lines; try the
lock (the two try-lock outcomes are the `lock1`/`lock2` parameters), on
failure bump the failure counter, retry once after a delay, and on a second
failure bump the counter again and drop the whole input, returning the
clamped length; otherwise run the line loop and return the possibly
truncated length. -/
def console_write (lock1 lock2 : Bool) (maxline : Nat) (pd : cons_s)
    (text : Nat → Nat) (len : Nat) : cons_s × Nat :=
  if len = 0 ∨ text 0 = 0 then (pd, 0)
  else
    let len1 := if maxline * 4 < len then maxline * 4 else len
    if lock1 then cons_loop pd text maxline 0 len1
    else
      let pd1 := { pd with lockfailures := pd.lockfailures + 1 }
      if lock2 then cons_loop pd1 text maxline 0 len1
      else ({ pd1 with lockfailures := pd1.lockfailures + 1 }, len1)

/-- One `console_write` call: the input bytes, the declared length, and the
outcomes of the first and second try-lock. -/
structure appendCall where
  text : Nat → Nat
  len : Nat
  lock1 : Bool
  lock2 : Bool

/-- The console at program start (program.c): a zeroed byte store (malloc
contents are never read before being written), a calloc-zeroed line list,
an rbam initialized to the line-list dimension, and a zero failure
counter. -/
def cons_init (bufdim dim : Nat) : cons_s :=
  { buf := fun _ => 0, bufdim := bufdim,
    linelist := fun _ => { pos := 0, len := 0 },
    rbam := (xyz_rbam_init ⟨0, 0, 0, 0, 0, 0⟩ dim).2, lockfailures := 0 }

/-- Run a sequence of `console_write` calls from the initial console. -/
def consoleRun (bufdim dim maxline : Nat) (calls : List appendCall) : cons_s :=
  calls.foldl
    (fun pd c => (console_write c.lock1 c.lock2 maxline pd c.text c.len).1)
    (cons_init bufdim dim)

-- ==========================================================================
-- Analysis definitions for the console invariants
-- ==========================================================================

/-- The live (committed, not yet consumed) descriptors of an rbam-managed
descriptor array, oldest first: slots `rd, rd+1, ..., rd+used-1` modulo
`dim`. -/
def liveOf (list : Nat → consline) (r : xyz_rbam) : List consline :=
  (List.range r.used).map (fun i => list ((r.rd + i) % r.dim))

/-- The live lines of the console. -/
def liveList (pd : cons_s) : List consline := liveOf pd.linelist pd.rbam

/-- Total stored bytes of a descriptor list. -/
def sumLen (l : List consline) : Nat := (l.map (fun d => d.len)).sum

/-- Two descriptors describe non-overlapping byte ranges. -/
def rangesDisjoint (a b : consline) : Prop :=
  a.pos + a.len ≤ b.pos ∨ b.pos + b.len ≤ a.pos

/-- Consecutive descriptors in the list are physically contiguous: each
line starts where the previous one ends. -/
def Contig : List consline → Prop
  | [] => True
  | [_] => True
  | a :: b :: t => b.pos = a.pos + a.len ∧ Contig (b :: t)

/-- End position of the last descriptor (0 for the empty list). -/
def lapEnd : List consline → Nat
  | [] => 0
  | [a] => a.pos + a.len
  | _ :: b :: t => lapEnd (b :: t)

/-- Every descriptor is nonempty and lies inside the byte store. -/
def InBounds (B : Nat) (l : List consline) : Prop :=
  ∀ d ∈ l, 1 ≤ d.len ∧ d.pos + d.len ≤ B

/-- The two-lap shape of the live window: the first `k` lines (the previous
lap, oldest first) are contiguous and start at or after the staging
position `cur`; the remaining lines (the current lap) are contiguous and
end exactly at `cur`. -/
def LapInv (B cur : Nat) (l : List consline) : Prop :=
  ∃ k, k ≤ l.length ∧ InBounds B l ∧
    Contig (List.take k l) ∧ Contig (List.drop k l) ∧
    (∀ d ∈ List.take k l, cur ≤ d.pos) ∧
    (List.drop k l = [] ∨ lapEnd (List.drop k l) = cur)

/-- Well-formedness of an rbam: indices in range, `next` the roll-over
successor of `wr`, statistics consistent. -/
def RInv (r : xyz_rbam) : Prop :=
  2 ≤ r.dim ∧ r.rd < r.dim ∧ r.wr < r.dim ∧
  r.next = (if r.wr ≥ r.dim - 1 then 0 else r.wr + 1) ∧
  r.used = (if r.wr ≥ r.rd then r.wr - r.rd else r.dim - r.rd + r.wr) ∧
  r.free = r.dim - r.used - 1

/-- The console invariant: a well-formed rbam, the staged start position
within bounds, and the live window in two-lap shape around it. -/
def ConsInv (pd : cons_s) : Prop :=
  RInv pd.rbam ∧ (pd.linelist pd.rbam.wr).pos ≤ pd.bufdim ∧
  LapInv pd.bufdim (pd.linelist pd.rbam.wr).pos (liveList pd)

/-- The condition of the first eviction loop. -/
def evict1Cond (list : Nat → consline) (newpos : Nat) (r : xyz_rbam) : Prop :=
  (list r.wr).pos ≤ (list r.rd).pos ∧ (list r.rd).pos < newpos ∧
    XYZ_RBAM_MORE r = true

/-- The condition of the second eviction loop. -/
def evict2Cond (list : Nat → consline) (newpos : Nat) (r : xyz_rbam) : Prop :=
  (list r.rd).pos < newpos ∧ XYZ_RBAM_MORE r = true

/-- The live window after an operation relates to the one before it by
dropping some of the oldest lines and appending new ones at the young end:
evictions take the oldest lines first. -/
def evictedFifo (old new : List consline) : Prop :=
  ∃ e news, new = List.drop e old ++ news

-- ==========================================================================
-- Theorems about cidx
-- ==========================================================================

/-- Helper invariant: the free count never exceeds the capacity and the
capacity is never altered by the operations. -/
theorem cidx_step_inv (ci : cidx_s) (op : CidxOp) (h : ci.fre ≤ ci.max) :
    (cidx_step ci op).fre ≤ (cidx_step ci op).max ∧ (cidx_step ci op).max = ci.max := by
  cases op with
  | commit =>
    simp only [cidx_step, cidx_commit]
    split <;> simp_all <;> omega
  | consume =>
    simp only [cidx_step, cidx_consume]
    have hm := Nat.mod_le (ci.fre + 1) W64
    split <;> simp_all <;> omega
  | drain =>
    simp only [cidx_step, cidx_drain]
    simp

theorem cidx_run_inv (ops : List CidxOp) (ci : cidx_s) (h : ci.fre ≤ ci.max) :
    (cidx_run ci ops).fre ≤ (cidx_run ci ops).max ∧ (cidx_run ci ops).max = ci.max := by
  induction ops generalizing ci with
  | nil => exact ⟨h, rfl⟩
  | cons op ops ih =>
    have h1 := cidx_step_inv ci op h
    have h2 := ih (cidx_step ci op) h1.1
    simp only [cidx_run, List.foldl_cons] at *
    exact ⟨h2.1, h2.2.trans h1.2⟩

/-- C3: after `cidx_init` with capacity at least 2, every sequence of
commit/consume/drain calls leaves the structure with
`freeCount + usedCount = capacity` and `freeCount ≤ capacity` (the missing
`0 ≤ freeCount` bound is automatic for the unsigned `size_t` field). -/
theorem claim_C3 (ci0 : cidx_s) (esz ary cap : Nat) (hcap : 2 ≤ cap)
    (ops : List CidxOp) :
    cidx_free (cidx_run (cidx_init ci0 esz ary cap).2 ops) +
      cidx_used (cidx_run (cidx_init ci0 esz ary cap).2 ops) = cap ∧
    cidx_free (cidx_run (cidx_init ci0 esz ary cap).2 ops) ≤ cap := by
  have hinit : (cidx_init ci0 esz ary cap).2 =
      { wr := 0, rd := 0, fre := cap, max := cap, esz := esz, ary := ary } := by
    simp [cidx_init, Nat.not_lt.mpr hcap]
  rw [hinit]
  obtain ⟨h1, h2⟩ := cidx_run_inv ops
      { wr := 0, rd := 0, fre := cap, max := cap, esz := esz, ary := ary } (le_refl cap)
  simp only [cidx_free, cidx_used]
  simp only at h2
  omega

/-- Witness for C3 at a concrete instance. -/
theorem claim_C3_witness :
    (2 : Nat) ≤ 10 ∧
    (cidx_free (cidx_run (cidx_init ⟨0, 0, 0, 0, 0, 0⟩ 4 0 10).2
        [CidxOp.commit, CidxOp.commit, CidxOp.consume, CidxOp.drain]) +
      cidx_used (cidx_run (cidx_init ⟨0, 0, 0, 0, 0, 0⟩ 4 0 10).2
        [CidxOp.commit, CidxOp.commit, CidxOp.consume, CidxOp.drain]) = 10 ∧
    cidx_free (cidx_run (cidx_init ⟨0, 0, 0, 0, 0, 0⟩ 4 0 10).2
        [CidxOp.commit, CidxOp.commit, CidxOp.consume, CidxOp.drain]) ≤ 10) :=
  ⟨by decide, claim_C3 ⟨0, 0, 0, 0, 0, 0⟩ 4 0 10 (by decide)
    [CidxOp.commit, CidxOp.commit, CidxOp.consume, CidxOp.drain]⟩

/-- C6: the concrete scenario from the test program and the spec: capacity 10,
4 commits, 6 more commits, a failing commit, 2 consumes, then drain. -/
theorem claim_C6 :
    (cidx_used (cidx_run (cidx_init ⟨0, 0, 0, 0, 0, 0⟩ 4 0 10).2
        [CidxOp.commit, CidxOp.commit, CidxOp.commit, CidxOp.commit]) = 4 ∧
     cidx_free (cidx_run (cidx_init ⟨0, 0, 0, 0, 0, 0⟩ 4 0 10).2
        [CidxOp.commit, CidxOp.commit, CidxOp.commit, CidxOp.commit]) = 6) ∧
    (cidx_isfull (cidx_run (cidx_init ⟨0, 0, 0, 0, 0, 0⟩ 4 0 10).2
        (List.replicate 10 CidxOp.commit)) = true ∧
     cidx_used (cidx_run (cidx_init ⟨0, 0, 0, 0, 0, 0⟩ 4 0 10).2
        (List.replicate 10 CidxOp.commit)) = 10 ∧
     cidx_free (cidx_run (cidx_init ⟨0, 0, 0, 0, 0, 0⟩ 4 0 10).2
        (List.replicate 10 CidxOp.commit)) = 0) ∧
    (cidx_commit (cidx_run (cidx_init ⟨0, 0, 0, 0, 0, 0⟩ 4 0 10).2
        (List.replicate 10 CidxOp.commit)) =
      (false, cidx_run (cidx_init ⟨0, 0, 0, 0, 0, 0⟩ 4 0 10).2
        (List.replicate 10 CidxOp.commit))) ∧
    (cidx_used (cidx_run (cidx_init ⟨0, 0, 0, 0, 0, 0⟩ 4 0 10).2
        (List.replicate 10 CidxOp.commit ++ [CidxOp.consume, CidxOp.consume])) = 8) ∧
    ((cidx_drain (cidx_run (cidx_init ⟨0, 0, 0, 0, 0, 0⟩ 4 0 10).2
        (List.replicate 10 CidxOp.commit ++ [CidxOp.consume, CidxOp.consume]))).1 = 8 ∧
     cidx_isempty (cidx_drain (cidx_run (cidx_init ⟨0, 0, 0, 0, 0, 0⟩ 4 0 10).2
        (List.replicate 10 CidxOp.commit ++ [CidxOp.consume, CidxOp.consume]))).2 = true ∧
     (cidx_drain (cidx_run (cidx_init ⟨0, 0, 0, 0, 0, 0⟩ 4 0 10).2
        (List.replicate 10 CidxOp.commit ++ [CidxOp.consume, CidxOp.consume]))).2.rd =
     (cidx_drain (cidx_run (cidx_init ⟨0, 0, 0, 0, 0, 0⟩ 4 0 10).2
        (List.replicate 10 CidxOp.commit ++ [CidxOp.consume, CidxOp.consume]))).2.wr) := by
  decide

/-- C7: `cidx_init` fails and leaves the structure untouched for capacity
below 2; for capacity at least 2 it succeeds and establishes
`rd = wr = 0`, `fre = capacity`, so the structure is empty and not full. -/
theorem claim_C7 (ci : cidx_s) (esz ary cap : Nat) :
    (cap < 2 → cidx_init ci esz ary cap = (false, ci)) ∧
    (2 ≤ cap →
      (cidx_init ci esz ary cap).1 = true ∧
      (cidx_init ci esz ary cap).2.rd = 0 ∧
      (cidx_init ci esz ary cap).2.wr = 0 ∧
      (cidx_init ci esz ary cap).2.fre = cap ∧
      cidx_isempty (cidx_init ci esz ary cap).2 = true ∧
      cidx_isfull (cidx_init ci esz ary cap).2 = false) := by
  constructor
  · intro h
    simp [cidx_init, h]
  · intro h
    have h2 : ¬ cap < 2 := by omega
    refine ⟨?_, ?_, ?_, ?_, ?_, ?_⟩ <;>
      simp [cidx_init, if_neg h2, cidx_isempty, cidx_isfull] <;> omega

/-- Witness for C7 at capacities 1 and 10. -/
theorem claim_C7_witness :
    (cidx_init ⟨1, 2, 3, 4, 5, 6⟩ 4 0 1 = (false, ⟨1, 2, 3, 4, 5, 6⟩)) ∧
    ((cidx_init ⟨1, 2, 3, 4, 5, 6⟩ 4 0 10).1 = true ∧
     (cidx_init ⟨1, 2, 3, 4, 5, 6⟩ 4 0 10).2.rd = 0 ∧
     (cidx_init ⟨1, 2, 3, 4, 5, 6⟩ 4 0 10).2.wr = 0 ∧
     (cidx_init ⟨1, 2, 3, 4, 5, 6⟩ 4 0 10).2.fre = 10 ∧
     cidx_isempty (cidx_init ⟨1, 2, 3, 4, 5, 6⟩ 4 0 10).2 = true ∧
     cidx_isfull (cidx_init ⟨1, 2, 3, 4, 5, 6⟩ 4 0 10).2 = false) :=
  ⟨(claim_C7 ⟨1, 2, 3, 4, 5, 6⟩ 4 0 1).1 (by decide),
   (claim_C7 ⟨1, 2, 3, 4, 5, 6⟩ 4 0 10).2 (by decide)⟩

/-- C10: `cidx_next` and `cidx_prev` are mutually inverse on indices below
the capacity and their results stay below the capacity.  Both are embedded
as pure functions because their C bodies contain no stores, so freedom from
side effects is inherent in the embedding. -/
theorem claim_C10 (ci : cidx_s) (idx : Nat) (hmax : 2 ≤ ci.max)
    (hidx : idx < ci.max) :
    cidx_prev ci (cidx_next ci idx) = idx ∧
    cidx_next ci (cidx_prev ci idx) = idx ∧
    cidx_next ci idx < ci.max ∧
    cidx_prev ci idx < ci.max := by
  have h0 : 0 < ci.max := by omega
  refine ⟨?_, ?_, Nat.mod_lt _ h0, ?_⟩
  · unfold cidx_next cidx_prev
    rcases Nat.lt_or_ge (idx + 1) ci.max with h | h
    · rw [Nat.mod_eq_of_lt h]
      simp
    · have he : idx + 1 = ci.max := by omega
      rw [he, Nat.mod_self]
      simp [cidx_prev]
      omega
  · unfold cidx_next cidx_prev
    rcases eq_or_ne idx 0 with h | h
    · rw [if_pos h.symm]
      have : ci.max - 1 + 1 = ci.max := by omega
      rw [this, Nat.mod_self, h]
    · rw [if_neg (by omega)]
      have : idx - 1 + 1 = idx := by omega
      rw [this, Nat.mod_eq_of_lt hidx]
  · unfold cidx_prev
    split <;> omega

/-- Witness for C10 at capacity 10, index 3. -/
theorem claim_C10_witness :
    cidx_prev ⟨0, 0, 10, 10, 4, 0⟩ (cidx_next ⟨0, 0, 10, 10, 4, 0⟩ 3) = 3 ∧
    cidx_next ⟨0, 0, 10, 10, 4, 0⟩ (cidx_prev ⟨0, 0, 10, 10, 4, 0⟩ 3) = 3 ∧
    cidx_next ⟨0, 0, 10, 10, 4, 0⟩ 3 < (10 : Nat) ∧
    cidx_prev ⟨0, 0, 10, 10, 4, 0⟩ 3 < (10 : Nat) :=
  claim_C10 ⟨0, 0, 10, 10, 4, 0⟩ 3 (by decide) (by decide)

/-- C1 (amended): on the IndexManager the committing store to the index
precedes the store to the shared free counter, on both the write side
(`cidx_commit`: `wr` before `fre`) and the read side (`cidx_consume`: `rd`
before `fre`); on the VMByteBuffer the order is reversed: `cbuf_commit` and
`cbuf_consume` update the free counter first and the offset second. -/
theorem claim_C1_amended :
    (∀ ci : cidx_s, ci.fre ≠ 0 →
      List.indexOf FieldTag.wrIdx (cidx_commit_updates ci) <
        List.indexOf FieldTag.fre (cidx_commit_updates ci)) ∧
    (∀ ci : cidx_s, ci.max ≠ ci.fre →
      List.indexOf FieldTag.rdIdx (cidx_consume_updates ci) <
        List.indexOf FieldTag.fre (cidx_consume_updates ci)) ∧
    (∀ (cb : cbuf_s) (n : Nat),
      List.indexOf FieldTag.fre (cbuf_commit_updates cb n) <
        List.indexOf FieldTag.wrIdx (cbuf_commit_updates cb n)) ∧
    (∀ (cb : cbuf_s) (n : Nat),
      List.indexOf FieldTag.fre (cbuf_consume_updates cb n) <
        List.indexOf FieldTag.rdIdx (cbuf_consume_updates cb n)) := by
  refine ⟨?_, ?_, ?_, ?_⟩
  · intro ci h
    rw [cidx_commit_updates, if_neg h]
    decide
  · intro ci h
    rw [cidx_consume_updates, if_neg h]
    decide
  · intro cb n
    rw [cbuf_commit_updates]
    decide
  · intro cb n
    rw [cbuf_consume_updates]
    decide

/-- Witness for C1 (amended) at concrete non-full/non-empty structures. -/
theorem claim_C1_witness :
    ((⟨0, 0, 5, 10, 4, 0⟩ : cidx_s).fre ≠ 0 ∧
      List.indexOf FieldTag.wrIdx (cidx_commit_updates ⟨0, 0, 5, 10, 4, 0⟩) <
        List.indexOf FieldTag.fre (cidx_commit_updates ⟨0, 0, 5, 10, 4, 0⟩)) ∧
    ((⟨0, 0, 5, 10, 4, 0⟩ : cidx_s).max ≠ (⟨0, 0, 5, 10, 4, 0⟩ : cidx_s).fre ∧
      List.indexOf FieldTag.rdIdx (cidx_consume_updates ⟨0, 0, 5, 10, 4, 0⟩) <
        List.indexOf FieldTag.fre (cidx_consume_updates ⟨0, 0, 5, 10, 4, 0⟩)) ∧
    List.indexOf FieldTag.fre (cbuf_commit_updates ⟨0, 0, 4096, 8, 7, 4096⟩ 16) <
      List.indexOf FieldTag.wrIdx (cbuf_commit_updates ⟨0, 0, 4096, 8, 7, 4096⟩ 16) ∧
    List.indexOf FieldTag.fre (cbuf_consume_updates ⟨0, 0, 4096, 8, 7, 4096⟩ 16) <
      List.indexOf FieldTag.rdIdx (cbuf_consume_updates ⟨0, 0, 4096, 8, 7, 4096⟩ 16) :=
  ⟨⟨by decide, claim_C1_amended.1 ⟨0, 0, 5, 10, 4, 0⟩ (by decide)⟩,
   ⟨by decide, claim_C1_amended.2.1 ⟨0, 0, 5, 10, 4, 0⟩ (by decide)⟩,
   claim_C1_amended.2.2.1 ⟨0, 0, 4096, 8, 7, 4096⟩ 16,
   claim_C1_amended.2.2.2 ⟨0, 0, 4096, 8, 7, 4096⟩ 16⟩

/-- C1 counterexample: in `cbuf_commit` the store to the shared free counter
(the `atomic_fetch_sub`) is NOT preceded by the write-offset store — the
offset store comes after it — refuting the claim that the write-index update
is performed before the free-counter update on the VMByteBuffer commit. -/
theorem claim_C1_counterexample :
    ¬ (List.indexOf FieldTag.wrIdx (cbuf_commit_updates ⟨0, 0, 4096, 8, 7, 4096⟩ 16) <
       List.indexOf FieldTag.fre (cbuf_commit_updates ⟨0, 0, 4096, 8, 7, 4096⟩ 16)) := by
  decide

/-- Bit arithmetic behind `n &= ~amask`: masking a 64-bit value with the
complement of a low-bit mask `2^k - 1` clears the low `k` bits, i.e. it
subtracts `n % 2^k`. -/
theorem land_himask (n k w : Nat) (hn : n < 2 ^ w) (hk : k ≤ w) :
    n &&& (2 ^ w - 2 ^ k) = n - n % 2 ^ k := by
  apply Nat.eq_of_testBit_eq
  intro i
  have hpow : (2 : Nat) ^ (w - k) * 2 ^ k = 2 ^ w := by
    rw [← Nat.pow_add]
    congr 1
    omega
  have hmask : (2 : Nat) ^ w - 2 ^ k = (2 ^ (w - k) - 1) <<< k := by
    rw [Nat.shiftLeft_eq, Nat.sub_mul, Nat.one_mul, hpow]
  have hsub : n - n % 2 ^ k = (n / 2 ^ k) <<< k := by
    rw [Nat.shiftLeft_eq, Nat.mul_comm]
    have := Nat.div_add_mod n (2 ^ k)
    omega
  rw [Nat.testBit_and, hmask, hsub, Nat.testBit_shiftLeft, Nat.testBit_shiftLeft]
  rcases Nat.lt_or_ge i k with hik | hik
  · have : decide (i ≥ k) = false := by simp [Nat.not_le.mpr hik]
    rw [this]
    simp
  · have h1 : decide (i ≥ k) = true := by simp [hik]
    rw [h1, Nat.testBit_two_pow_sub_one]
    have hdiv : (n / 2 ^ k).testBit (i - k) = n.testBit i := by
      rw [← Nat.shiftRight_eq_div_pow, Nat.testBit_shiftRight]
      congr 1
      omega
    rcases Nat.lt_or_ge i w with hiw | hiw
    · have : decide (i - k < w - k) = true := by
        simp only [decide_eq_true_eq]
        omega
      rw [this, hdiv]
      simp [Bool.and_comm]
    · have hfalse : n.testBit i = false := by
        apply Nat.testBit_lt_two_pow
        exact Nat.lt_of_lt_of_le hn (Nat.pow_le_pow_right (by omega) hiw)
      rw [hdiv, hfalse]
      simp

/-- The C clamp `if (n > b) n = b` equals `min`. -/
theorem clamp_eq_min (a b : Nat) : (if a > b then b else a) = min a b := by
  rcases Nat.lt_or_ge b a with h | h
  · rw [if_pos h, Nat.min_eq_right (by omega)]
  · rw [if_neg (by omega), Nat.min_eq_left h]

/-- For a power-of-two alignment with the matching mask, the mask-and-add
adjustment in `cbuf_commit`/`cbuf_consume` computes the round-up to the next
multiple of the alignment, provided that round-up is representable in
`size_t`. -/
theorem cbuf_align_adjust_pow (cb : cbuf_s) (n k : Nat) (hA : cb.align = 2 ^ k)
    (hm : cb.amask = 2 ^ k - 1) (hk : k ≤ 63) (hn : n < W64)
    (hround : roundUpSpec n (2 ^ k) < W64) :
    cbuf_align_adjust cb n = roundUpSpec n (2 ^ k) := by
  have hpos : 0 < cb.align := by
    rw [hA]
    exact Nat.pos_pow_of_pos k (by omega)
  have h1 : (1 : Nat) ≤ 2 ^ k := Nat.one_le_two_pow
  have hmask1 : n &&& cb.amask = n % 2 ^ k := by
    rw [hm]
    exact Nat.and_pow_two_sub_one_eq_mod n k
  have hmod_lt : n % 2 ^ k < 2 ^ k := Nat.mod_lt n (by omega)
  have hmask2 : n &&& ((W64 - 1) - cb.amask) = n - n % 2 ^ k := by
    have he : (W64 - 1) - cb.amask = 2 ^ 64 - 2 ^ k := by
      rw [hm]
      have h64 : W64 = 2 ^ 64 := rfl
      omega
    rw [he]
    exact land_himask n k 64 hn (by omega)
  simp only [cbuf_align_adjust, if_pos hpos, hmask1, hmask2, roundUpSpec]
  rcases eq_or_ne (n % 2 ^ k) 0 with hz | hz
  · rw [if_neg (by omega), if_pos hz, hz, Nat.sub_zero]
  · rw [if_pos hz, if_neg hz, hA]
    apply Nat.mod_eq_of_lt
    rw [roundUpSpec, if_neg hz] at hround
    exact hround

/-- C5 (amended): `cbuf_commit` rounds the requested count up to the
configured alignment, clamps to the free bytes, subtracts exactly the
clamped amount from `fre`, advances `wr` by it modulo the buffer size, and
returns it; `cbuf_consume` mirrors this with the clamp against the used
bytes — provided the round-up does not overflow `size_t` (`alignUpSpec n
align < 2^64`); for larger unaligned `n` the C round-up wraps modulo 2^64
(see the counterexample). -/
theorem claim_C5_amended (cb : cbuf_s) (n : Nat)
    (halign : (cb.align = 0 ∧ cb.amask = 0) ∨
      ((cb.align = 2 ∨ cb.align = 4 ∨ cb.align = 8) ∧ cb.amask = cb.align - 1))
    (hn : n < W64)
    (hround : alignUpSpec n cb.align < W64)
    (hfre : cb.fre ≤ cb.max) (hwr : cb.wr < cb.max) (hrd : cb.rd < cb.max)
    (hmax2 : cb.max ≤ 2 ^ 63) :
    ((cbuf_commit cb n).2 = min (alignUpSpec n cb.align) cb.fre ∧
     (cbuf_commit cb n).1.fre = cb.fre - min (alignUpSpec n cb.align) cb.fre ∧
     (cbuf_commit cb n).1.wr =
       (cb.wr + min (alignUpSpec n cb.align) cb.fre) % cb.max ∧
     (cbuf_commit cb n).1.rd = cb.rd ∧
     (cbuf_commit cb n).1.max = cb.max) ∧
    ((cbuf_consume cb n).2 = min (alignUpSpec n cb.align) (cbuf_used cb) ∧
     (cbuf_consume cb n).1.fre = cb.fre + min (alignUpSpec n cb.align) (cbuf_used cb) ∧
     (cbuf_consume cb n).1.rd =
       (cb.rd + min (alignUpSpec n cb.align) (cbuf_used cb)) % cb.max ∧
     (cbuf_consume cb n).1.wr = cb.wr ∧
     (cbuf_consume cb n).1.max = cb.max) := by
  have h64 : W64 = 2 ^ 64 := rfl
  have hadj : cbuf_align_adjust cb n = alignUpSpec n cb.align := by
    rcases halign with ⟨h0, _⟩ | ⟨h248, hm⟩
    · simp [cbuf_align_adjust, alignUpSpec, h0]
    · have hup : alignUpSpec n cb.align = roundUpSpec n cb.align := by
        rw [alignUpSpec, if_neg (by rcases h248 with h | h | h <;> omega)]
      rcases h248 with h | h | h
      · rw [hup, h]
        exact cbuf_align_adjust_pow cb n 1 (by rw [h]; norm_num) (by rw [hm, h]; norm_num) (by omega) hn
          (by rw [hup, h] at hround; exact hround)
      · rw [hup, h]
        exact cbuf_align_adjust_pow cb n 2 (by rw [h]; norm_num) (by rw [hm, h]; norm_num) (by omega) hn
          (by rw [hup, h] at hround; exact hround)
      · rw [hup, h]
        exact cbuf_align_adjust_pow cb n 3 (by rw [h]; norm_num) (by rw [hm, h]; norm_num) (by omega) hn
          (by rw [hup, h] at hround; exact hround)
  constructor
  · have hm1 : min (alignUpSpec n cb.align) cb.fre ≤ cb.fre := Nat.min_le_right _ _
    have hlt : cb.wr + min (alignUpSpec n cb.align) cb.fre < W64 := by omega
    simp [cbuf_commit, hadj, clamp_eq_min, Nat.mod_eq_of_lt hlt]
  · have hm1 : min (alignUpSpec n cb.align) (cb.max - cb.fre) ≤ cb.max - cb.fre :=
      Nat.min_le_right _ _
    have hlt1 : cb.fre + min (alignUpSpec n cb.align) (cb.max - cb.fre) < W64 := by omega
    have hlt2 : cb.rd + min (alignUpSpec n cb.align) (cb.max - cb.fre) < W64 := by omega
    simp [cbuf_consume, hadj, clamp_eq_min, cbuf_used, Nat.mod_eq_of_lt hlt1,
      Nat.mod_eq_of_lt hlt2]

/-- Witness for C5 (amended): an 8-aligned buffer of 4096 bytes with 4088
free bytes and a request of 13 bytes (rounded to 16). -/
theorem claim_C5_witness :
    ((((⟨8, 0, 4088, 8, 7, 4096⟩ : cbuf_s).align = 0 ∧
        (⟨8, 0, 4088, 8, 7, 4096⟩ : cbuf_s).amask = 0) ∨
      (((⟨8, 0, 4088, 8, 7, 4096⟩ : cbuf_s).align = 2 ∨
        (⟨8, 0, 4088, 8, 7, 4096⟩ : cbuf_s).align = 4 ∨
        (⟨8, 0, 4088, 8, 7, 4096⟩ : cbuf_s).align = 8) ∧
        (⟨8, 0, 4088, 8, 7, 4096⟩ : cbuf_s).amask =
          (⟨8, 0, 4088, 8, 7, 4096⟩ : cbuf_s).align - 1)) ∧
     (13 : Nat) < W64 ∧ alignUpSpec 13 (⟨8, 0, 4088, 8, 7, 4096⟩ : cbuf_s).align < W64) ∧
    ((cbuf_commit ⟨8, 0, 4088, 8, 7, 4096⟩ 13).2 =
      min (alignUpSpec 13 (⟨8, 0, 4088, 8, 7, 4096⟩ : cbuf_s).align)
        (⟨8, 0, 4088, 8, 7, 4096⟩ : cbuf_s).fre ∧
     (cbuf_commit ⟨8, 0, 4088, 8, 7, 4096⟩ 13).1.fre =
      (⟨8, 0, 4088, 8, 7, 4096⟩ : cbuf_s).fre -
        min (alignUpSpec 13 (⟨8, 0, 4088, 8, 7, 4096⟩ : cbuf_s).align)
          (⟨8, 0, 4088, 8, 7, 4096⟩ : cbuf_s).fre ∧
     (cbuf_commit ⟨8, 0, 4088, 8, 7, 4096⟩ 13).1.wr =
      ((⟨8, 0, 4088, 8, 7, 4096⟩ : cbuf_s).wr +
        min (alignUpSpec 13 (⟨8, 0, 4088, 8, 7, 4096⟩ : cbuf_s).align)
          (⟨8, 0, 4088, 8, 7, 4096⟩ : cbuf_s).fre) %
        (⟨8, 0, 4088, 8, 7, 4096⟩ : cbuf_s).max ∧
     (cbuf_commit ⟨8, 0, 4088, 8, 7, 4096⟩ 13).1.rd =
      (⟨8, 0, 4088, 8, 7, 4096⟩ : cbuf_s).rd ∧
     (cbuf_commit ⟨8, 0, 4088, 8, 7, 4096⟩ 13).1.max =
      (⟨8, 0, 4088, 8, 7, 4096⟩ : cbuf_s).max) ∧
    ((cbuf_consume ⟨8, 0, 4088, 8, 7, 4096⟩ 13).2 =
      min (alignUpSpec 13 (⟨8, 0, 4088, 8, 7, 4096⟩ : cbuf_s).align)
        (cbuf_used ⟨8, 0, 4088, 8, 7, 4096⟩) ∧
     (cbuf_consume ⟨8, 0, 4088, 8, 7, 4096⟩ 13).1.fre =
      (⟨8, 0, 4088, 8, 7, 4096⟩ : cbuf_s).fre +
        min (alignUpSpec 13 (⟨8, 0, 4088, 8, 7, 4096⟩ : cbuf_s).align)
          (cbuf_used ⟨8, 0, 4088, 8, 7, 4096⟩) ∧
     (cbuf_consume ⟨8, 0, 4088, 8, 7, 4096⟩ 13).1.rd =
      ((⟨8, 0, 4088, 8, 7, 4096⟩ : cbuf_s).rd +
        min (alignUpSpec 13 (⟨8, 0, 4088, 8, 7, 4096⟩ : cbuf_s).align)
          (cbuf_used ⟨8, 0, 4088, 8, 7, 4096⟩)) %
        (⟨8, 0, 4088, 8, 7, 4096⟩ : cbuf_s).max ∧
     (cbuf_consume ⟨8, 0, 4088, 8, 7, 4096⟩ 13).1.wr =
      (⟨8, 0, 4088, 8, 7, 4096⟩ : cbuf_s).wr ∧
     (cbuf_consume ⟨8, 0, 4088, 8, 7, 4096⟩ 13).1.max =
      (⟨8, 0, 4088, 8, 7, 4096⟩ : cbuf_s).max) :=
  ⟨⟨by right; exact ⟨by right; right; rfl, rfl⟩, by decide, by decide⟩,
   claim_C5_amended ⟨8, 0, 4088, 8, 7, 4096⟩ 13
     (by right; exact ⟨by right; right; rfl, rfl⟩) (by decide) (by decide)
     (by decide) (by decide) (by decide) (by decide)⟩

/-- C5 counterexample: with 8-byte alignment and 4096 free bytes, a request
of `2^64 - 1` bytes should (by the claim) be rounded up and clamped to 4096
committed bytes, but the C round-up wraps modulo 2^64 to 0 and the call
commits nothing. -/
theorem claim_C5_counterexample :
    (cbuf_commit ⟨0, 0, 4096, 8, 7, 4096⟩ (2 ^ 64 - 1)).2 = 0 ∧
    min (alignUpSpec (2 ^ 64 - 1) 8) (4096 : Nat) = 4096 ∧
    (cbuf_commit ⟨0, 0, 4096, 8, 7, 4096⟩ (2 ^ 64 - 1)).2 ≠
      min (alignUpSpec (2 ^ 64 - 1) 8) (4096 : Nat) := by
  refine ⟨?_, ?_, ?_⟩ <;> decide

/-- The most-significant-bit test `bufsize >> ((sizeof(bufsize)*8)-1) != 0`
is equivalent to `2^63 ≤ bufsize` as the guard of the halving branch. -/
theorem msb_halve_eq (s : Nat) :
    (if s >>> (8 * 8 - 1) ≠ 0 then s / 2 else s) =
    (if 2 ^ 63 ≤ s then s / 2 else s) := by
  have h1 : (8 * 8 - 1 : Nat) = 63 := by norm_num
  have hshift : s >>> (8 * 8 - 1) = s / 2 ^ 63 := by
    rw [h1, Nat.shiftRight_eq_div_pow]
  rcases Nat.lt_or_ge s (2 ^ 63) with hlt | hge
  · rw [if_neg (by rw [hshift]; simp; omega), if_neg (by omega)]
  · rw [if_pos (by rw [hshift]; have := Nat.div_pos hge (by positivity); omega),
      if_pos hge]

/-- C9 (amended): for a power-of-two page size `2^k` and any `minSize` whose
round-up to the next page multiple is representable in `size_t`, the size
selected by `cbuf_create` equals that round-up (minimum one page), halved
when its most-significant bit is set; when the round-up would reach `2^64`
the C computation wraps modulo 2^64 instead (see the counterexample). -/
theorem claim_C9_amended (minsize k : Nat) (hk : k ≤ 63) (hmin : minsize < W64)
    (hround : roundUpSpec minsize (2 ^ k) < W64) :
    cbuf_bufsize minsize (2 ^ k) = cbuf_sizeSpec minsize (2 ^ k) := by
  have hp1 : (1 : Nat) ≤ 2 ^ k := Nat.one_le_two_pow
  have hpw : (2 : Nat) ^ k ≤ 2 ^ 63 := Nat.pow_le_pow_right (by omega) hk
  have h64 : W64 = 2 ^ 64 := rfl
  have hb0 : minsize &&& ((W64 - 1) - (2 ^ k - 1)) = minsize - minsize % 2 ^ k := by
    have he : (W64 - 1) - ((2 : Nat) ^ k - 1) = 2 ^ 64 - 2 ^ k := by omega
    rw [he]
    exact land_himask minsize k 64 (by omega) (by omega)
  have hmod : minsize % 2 ^ k < 2 ^ k := Nat.mod_lt _ (by omega)
  have hmod2 : minsize % 2 ^ k ≤ minsize := Nat.mod_le _ _
  simp only [cbuf_bufsize, cbuf_sizeSpec, hb0]
  have hb1 : (if minsize - minsize % 2 ^ k < 2 ^ k ∨ minsize % 2 ^ k ≠ 0 then
        (minsize - minsize % 2 ^ k + 2 ^ k) % W64 else minsize - minsize % 2 ^ k) =
      max (2 ^ k) (roundUpSpec minsize (2 ^ k)) := by
    rcases eq_or_ne (minsize % 2 ^ k) 0 with hz | hz
    · rcases eq_or_ne minsize 0 with h0 | h0
      · subst h0
        rw [if_pos (by left; omega), Nat.mod_eq_of_lt (by omega)]
        simp [roundUpSpec]
      · have hge : 2 ^ k ≤ minsize := by
          rcases Nat.lt_or_ge minsize (2 ^ k) with hlt | hge2
          · rw [Nat.mod_eq_of_lt hlt] at hz
            omega
          · exact hge2
        rw [if_neg (by omega), roundUpSpec, if_pos hz]
        omega
    · rw [if_pos (Or.inr hz), roundUpSpec, if_neg hz]
      have hlt : minsize - minsize % 2 ^ k + 2 ^ k < W64 := by
        rw [roundUpSpec, if_neg hz] at hround
        exact hround
      rw [Nat.mod_eq_of_lt hlt]
      omega
  rw [hb1]
  exact msb_halve_eq (max (2 ^ k) (roundUpSpec minsize (2 ^ k)))

/-- Witness for C9 (amended) at `minSize = 10000`, page size 4096. -/
theorem claim_C9_witness :
    ((12 : Nat) ≤ 63 ∧ (10000 : Nat) < W64 ∧ roundUpSpec 10000 (2 ^ 12) < W64) ∧
    cbuf_bufsize 10000 (2 ^ 12) = cbuf_sizeSpec 10000 (2 ^ 12) :=
  ⟨⟨by decide, by decide, by decide⟩,
   claim_C9_amended 10000 12 (by decide) (by decide) (by decide)⟩

/-- C9 counterexample: with page size 4096 and `minSize = 2^64 - 1`, the
claimed selected size (round-up to the next page multiple, here with the
most-significant bit set and hence halved) is `2^63`, but the C computation
wraps modulo 2^64 and selects 0 — also contradicting the function's own
documentation that the buffer is never smaller than `minsize`. -/
theorem claim_C9_counterexample :
    cbuf_bufsize (2 ^ 64 - 1) 4096 = 0 ∧
    cbuf_sizeSpec (2 ^ 64 - 1) 4096 = 2 ^ 63 ∧
    cbuf_bufsize (2 ^ 64 - 1) 4096 ≠ cbuf_sizeSpec (2 ^ 64 - 1) 4096 := by
  refine ⟨?_, ?_, ?_⟩ <;> decide

/-- C2 (amended): when both try-lock attempts fail, `console_write`
increments `lockfailures` twice and leaves the ring, the descriptor list
and the byte store unchanged, but returns the clamped input length
`min(len, 4*maxline)` — not 0 — for any nonempty input that does not start
with a terminator (empty or terminator-leading input returns 0 without
touching the lock). -/
theorem claim_C2_amended (maxline : Nat) (pd : cons_s) (text : Nat → Nat)
    (len : Nat) (hlen : len ≠ 0) (htext : text 0 ≠ 0) :
    console_write false false maxline pd text len =
      ({ pd with lockfailures := pd.lockfailures + 2 },
       if maxline * 4 < len then maxline * 4 else len) := by
  have h : ¬ (len = 0 ∨ text 0 = 0) := by tauto
  simp only [console_write, if_neg h]
  rfl

/-- Witness for C2 (amended): a 3-byte input against a fresh console with
`maxline = 2`, both lock attempts failing. -/
theorem claim_C2_witness :
    ((3 : Nat) ≠ 0 ∧ (fun _ : Nat => 65) 0 ≠ 0) ∧
    console_write false false 2 (cons_init 64 10) (fun _ => 65) 3 =
      ({ cons_init 64 10 with
          lockfailures := (cons_init 64 10).lockfailures + 2 },
       if 2 * 4 < 3 then 2 * 4 else 3) :=
  ⟨⟨by decide, by decide⟩,
   claim_C2_amended 2 (cons_init 64 10) (fun _ => 65) 3 (by decide) (by decide)⟩

/-- C2 counterexample: the same dropped call returns the clamped length 3,
refuting the claim that a doubly lock-failed append returns 0. -/
theorem claim_C2_counterexample :
    (console_write false false 2 (cons_init 64 10) (fun _ => 65) 3).2 = 3 ∧
    (console_write false false 2 (cons_init 64 10) (fun _ => 65) 3).2 ≠ 0 := by
  constructor
  · rfl
  · intro h
    simp only [console_write] at h
    revert h
    decide

-- ==========================================================================
-- rbam lemmas
-- ==========================================================================

/-- Reduction of `a % d` when `a < 2d`. -/
theorem mod_two_cases (a d : Nat) (h1 : 0 < d) (h2 : a < 2 * d) :
    a % d = if a < d then a else a - d := by
  split
  · exact Nat.mod_eq_of_lt (by assumption)
  · rw [Nat.mod_eq_sub_mod (by omega), Nat.mod_eq_of_lt (by omega)]

theorem rinv_used_le (r : xyz_rbam) (h : RInv r) : r.used ≤ r.dim - 1 := by
  obtain ⟨h1, h2, h3, _, h5, _⟩ := h
  rcases Nat.lt_or_ge r.wr r.rd with hc | hc
  · rw [h5, if_neg (by omega)]
    omega
  · rw [h5, if_pos (by omega)]
    omega

theorem rinv_rd_add_used (r : xyz_rbam) (h : RInv r) :
    r.rd + r.used = r.wr ∨ r.rd + r.used = r.wr + r.dim := by
  obtain ⟨h1, h2, h3, _, h5, _⟩ := h
  rcases Nat.lt_or_ge r.wr r.rd with hc | hc
  · right
    rw [h5, if_neg (by omega)]
    omega
  · left
    rw [h5, if_pos (by omega)]
    omega

theorem live_idx_ne_wr (r : xyz_rbam) (h : RInv r) (i : Nat) (hi : i < r.used) :
    (r.rd + i) % r.dim ≠ r.wr := by
  have hle := rinv_used_le r h
  have hadd := rinv_rd_add_used r h
  obtain ⟨h1, h2, h3, _, _, _⟩ := h
  have hmod : (r.rd + i) % r.dim = if r.rd + i < r.dim then r.rd + i else r.rd + i - r.dim :=
    mod_two_cases _ _ (by omega) (by omega)
  rw [hmod]
  split <;> omega

theorem liveOf_length (list : Nat → consline) (r : xyz_rbam) :
    (liveOf list r).length = r.used := by
  simp [liveOf]

theorem full_iff (r : xyz_rbam) (h : RInv r) :
    XYZ_RBAM_FULL r = true ↔ r.used = r.dim - 1 := by
  obtain ⟨h1, h2, h3, h4, h5, _⟩ := h
  simp only [XYZ_RBAM_FULL, beq_iff_eq]
  rw [h4, h5]
  constructor
  · intro he
    split at he <;> split <;> omega
  · intro he
    split at he <;> split <;> omega

theorem more_iff (r : xyz_rbam) (h : RInv r) :
    XYZ_RBAM_MORE r = true ↔ 1 ≤ r.used := by
  obtain ⟨h1, h2, h3, _, h5, _⟩ := h
  simp only [XYZ_RBAM_MORE, bne_iff_ne, ne_eq]
  rw [h5]
  constructor
  · intro he
    split <;> omega
  · intro he
    split at he <;> omega

/-- `xyz_rbam_read` on a well-formed, nonempty rbam: indices stay
well-formed, `wr`, `next` and `dim` are untouched, one element is consumed,
and the read index moves to its roll-over successor. -/
theorem read_spec (r : xyz_rbam) (h : RInv r) (hm : XYZ_RBAM_MORE r = true) :
    RInv (xyz_rbam_read r) ∧ (xyz_rbam_read r).wr = r.wr ∧
    (xyz_rbam_read r).next = r.next ∧ (xyz_rbam_read r).dim = r.dim ∧
    (xyz_rbam_read r).used = r.used - 1 ∧ 1 ≤ r.used ∧
    (xyz_rbam_read r).rd = (r.rd + 1) % r.dim := by
  have h1 := (more_iff r h).mp hm
  obtain ⟨hd, h2, h3, h4, h5, h6⟩ := h
  have hrd' : (if r.rd ≥ r.dim - 1 then 0 else r.rd + 1) = (r.rd + 1) % r.dim := by
    rcases Nat.lt_or_ge r.rd (r.dim - 1) with hc | hc
    · rw [if_neg (by omega), Nat.mod_eq_of_lt (by omega)]
    · have he : r.rd = r.dim - 1 := by omega
      rw [if_pos (by omega), he]
      have he2 : r.dim - 1 + 1 = r.dim := by omega
      rw [he2, Nat.mod_self]
  have frd : (xyz_rbam_read r).rd = (r.rd + 1) % r.dim := by
    simp only [xyz_rbam_read, if_pos hm]
    exact hrd'
  have fwr : (xyz_rbam_read r).wr = r.wr := by
    simp only [xyz_rbam_read, if_pos hm]
  have fnext : (xyz_rbam_read r).next = r.next := by
    simp only [xyz_rbam_read, if_pos hm]
  have fdim : (xyz_rbam_read r).dim = r.dim := by
    simp only [xyz_rbam_read, if_pos hm]
  have fused : (xyz_rbam_read r).used =
      (if (xyz_rbam_read r).wr ≥ (xyz_rbam_read r).rd then
        (xyz_rbam_read r).wr - (xyz_rbam_read r).rd
      else (xyz_rbam_read r).dim - (xyz_rbam_read r).rd + (xyz_rbam_read r).wr) := by
    simp only [xyz_rbam_read, if_pos hm]
  have ffree : (xyz_rbam_read r).free =
      (xyz_rbam_read r).dim - (xyz_rbam_read r).used - 1 := by
    simp only [xyz_rbam_read, if_pos hm]
  have hmore : r.rd ≠ r.wr := by
    simpa [XYZ_RBAM_MORE, bne_iff_ne] using hm
  have hmod : (r.rd + 1) % r.dim =
      if r.rd + 1 < r.dim then r.rd + 1 else r.rd + 1 - r.dim :=
    mod_two_cases _ _ (by omega) (by omega)
  have husedval : (xyz_rbam_read r).used = r.used - 1 := by
    rw [fused, fwr, frd, fdim, h5, hmod]
    split <;> split <;> split <;> omega
  refine ⟨⟨?_, ?_, ?_, ?_, fused, ffree⟩, fwr, fnext, fdim, husedval, h1, frd⟩
  · rw [fdim]
    exact hd
  · rw [frd, fdim]
    exact Nat.mod_lt _ (by omega)
  · rw [fwr, fdim]
    exact h3
  · rw [fnext, fwr, fdim]
    exact h4

/-- Reading shifts the live window: the new live list is the tail. -/
theorem read_live (list : Nat → consline) (r : xyz_rbam) (h : RInv r)
    (hm : XYZ_RBAM_MORE r = true) :
    liveOf list (xyz_rbam_read r) = (liveOf list r).tail := by
  obtain ⟨hr, hwr, hnx, hdim, hused, hone, hrd⟩ := read_spec r h hm
  have hu : r.used = (r.used - 1) + 1 := by omega
  simp only [liveOf, hused, hdim, hrd]
  rw [hu, List.range_succ_eq_map]
  simp only [List.map_cons, List.map_map, List.tail_cons]
  apply List.map_congr_left
  intro i _
  simp only [Function.comp]
  rw [Nat.mod_add_mod]
  congr 1
  congr 1 <;> omega

/-- `xyz_rbam_write` on a well-formed, non-full rbam: one element is
published at the old `wr` slot, `rd` is untouched, `wr` moves to the old
sentinel. -/
theorem write_spec (r : xyz_rbam) (h : RInv r) (hnf : XYZ_RBAM_FULL r = false) :
    RInv (xyz_rbam_write r) ∧ (xyz_rbam_write r).rd = r.rd ∧
    (xyz_rbam_write r).dim = r.dim ∧
    (xyz_rbam_write r).used = r.used + 1 ∧
    (xyz_rbam_write r).wr = r.next := by
  have hfree : XYZ_RBAM_FREE r = true := by
    simp only [XYZ_RBAM_FULL, beq_eq_false_iff_ne, ne_eq] at hnf
    simp only [XYZ_RBAM_FREE, bne_iff_ne, ne_eq]
    exact hnf
  have hnotfull : ¬ r.used = r.dim - 1 := by
    intro he
    rw [← full_iff r h] at he
    rw [he] at hnf
    exact absurd hnf (by simp)
  have hne : r.next ≠ r.rd := by
    simp only [XYZ_RBAM_FREE, bne_iff_ne, ne_eq] at hfree
    exact hfree
  obtain ⟨hd, h2, h3, h4, h5, h6⟩ := h
  have frd : (xyz_rbam_write r).rd = r.rd := by
    simp only [xyz_rbam_write, if_pos hfree]
  have fwr : (xyz_rbam_write r).wr = r.next := by
    simp only [xyz_rbam_write, if_pos hfree]
  have fnext : (xyz_rbam_write r).next =
      (if r.next ≥ r.dim - 1 then 0 else r.next + 1) := by
    simp only [xyz_rbam_write, if_pos hfree]
  have fdim : (xyz_rbam_write r).dim = r.dim := by
    simp only [xyz_rbam_write, if_pos hfree]
  have fused : (xyz_rbam_write r).used =
      (if (xyz_rbam_write r).wr ≥ (xyz_rbam_write r).rd then
        (xyz_rbam_write r).wr - (xyz_rbam_write r).rd
      else (xyz_rbam_write r).dim - (xyz_rbam_write r).rd + (xyz_rbam_write r).wr) := by
    simp only [xyz_rbam_write, if_pos hfree]
  have ffree : (xyz_rbam_write r).free =
      (xyz_rbam_write r).dim - (xyz_rbam_write r).used - 1 := by
    simp only [xyz_rbam_write, if_pos hfree]
  have hnext_lt : r.next < r.dim := by
    rw [h4]
    split <;> omega
  have husedval : (xyz_rbam_write r).used = r.used + 1 := by
    rw [fused, fwr, frd, fdim, h5]
    rw [h4] at hne ⊢
    split_ifs at hne ⊢ <;> omega
  refine ⟨⟨?_, ?_, ?_, ?_, fused, ffree⟩, frd, fdim, husedval, fwr⟩
  · rw [fdim]
    exact hd
  · rw [frd, fdim]
    exact h2
  · rw [fwr, fdim]
    exact hnext_lt
  · rw [fnext, fwr, fdim, h4]

/-- Writing appends the staged slot to the live window. -/
theorem write_live (list : Nat → consline) (r : xyz_rbam) (h : RInv r)
    (hnf : XYZ_RBAM_FULL r = false) :
    liveOf list (xyz_rbam_write r) = liveOf list r ++ [list r.wr] := by
  obtain ⟨hr, hrd, hdim, hused, hwr⟩ := write_spec r h hnf
  have hadd := rinv_rd_add_used r h
  obtain ⟨hd, h2, h3, _, _, _⟩ := h
  simp only [liveOf, hused, hdim, hrd]
  rw [List.range_succ, List.map_append, List.map_cons, List.map_nil]
  congr 2
  rcases hadd with hc | hc
  · rw [hc, Nat.mod_eq_of_lt h3]
  · rw [hc, Nat.add_mod_right, Nat.mod_eq_of_lt h3]

/-- Updating the slot at `wr` (or any slot outside the live window) leaves
the live window unchanged. -/
theorem updFn_live_wr (list : Nat → consline) (r : xyz_rbam) (h : RInv r)
    (v : consline) :
    liveOf (updFn list r.wr v) r = liveOf list r := by
  apply List.map_congr_left
  intro i hi
  rw [List.mem_range] at hi
  simp only [updFn]
  rw [if_neg (live_idx_ne_wr r h i hi)]

/-- With at least `used + 1` fuel, `evict1` drops a prefix of the live
window, preserves well-formedness, leaves `wr`/`next`/`dim` alone, and stops
with its condition false. -/
theorem evict1_spec (list : Nat → consline) (np : Nat) (fuel : Nat) :
    ∀ r : xyz_rbam, RInv r → r.used < fuel →
    RInv (evict1 list np r fuel) ∧ (evict1 list np r fuel).wr = r.wr ∧
    (evict1 list np r fuel).next = r.next ∧
    (evict1 list np r fuel).dim = r.dim ∧
    (evict1 list np r fuel).used ≤ r.used ∧
    (∃ e, liveOf list (evict1 list np r fuel) = (liveOf list r).drop e) ∧
    ¬ evict1Cond list np (evict1 list np r fuel) := by
  induction fuel with
  | zero =>
    intro r _ hf
    omega
  | succ fuel ih =>
    intro r h hf
    rw [evict1]
    split
    · next hcond =>
      have hm : XYZ_RBAM_MORE r = true := hcond.2.2
      obtain ⟨hr, hwr, hnx, hdim, hused, hone, _⟩ := read_spec r h hm
      obtain ⟨ih1, ih2, ih3, ih4, ih5, ⟨e, ih6⟩, ih7⟩ :=
        ih (xyz_rbam_read r) hr (by omega)
      refine ⟨ih1, by rw [ih2, hwr], by rw [ih3, hnx], by rw [ih4, hdim],
        by omega, ⟨e + 1, ?_⟩, ih7⟩
      rw [ih6, read_live list r h hm, ← List.drop_one, List.drop_drop]
      congr 1
      omega
    · next hcond =>
      refine ⟨h, rfl, rfl, rfl, le_refl _, ⟨0, by rw [List.drop_zero]⟩, ?_⟩
      intro hc
      exact hcond ⟨hc.1, hc.2.1, hc.2.2⟩

/-- With at least `used + 1` fuel, `evict2` drops a prefix of the live
window, preserves well-formedness, leaves `wr`/`next`/`dim` alone, and stops
with its condition false. -/
theorem evict2_spec (list : Nat → consline) (np : Nat) (fuel : Nat) :
    ∀ r : xyz_rbam, RInv r → r.used < fuel →
    RInv (evict2 list np r fuel) ∧ (evict2 list np r fuel).wr = r.wr ∧
    (evict2 list np r fuel).next = r.next ∧
    (evict2 list np r fuel).dim = r.dim ∧
    (evict2 list np r fuel).used ≤ r.used ∧
    (∃ e, liveOf list (evict2 list np r fuel) = (liveOf list r).drop e) ∧
    ¬ evict2Cond list np (evict2 list np r fuel) := by
  induction fuel with
  | zero =>
    intro r _ hf
    omega
  | succ fuel ih =>
    intro r h hf
    rw [evict2]
    split
    · next hcond =>
      have hm : XYZ_RBAM_MORE r = true := hcond.2
      obtain ⟨hr, hwr, hnx, hdim, hused, hone, _⟩ := read_spec r h hm
      obtain ⟨ih1, ih2, ih3, ih4, ih5, ⟨e, ih6⟩, ih7⟩ :=
        ih (xyz_rbam_read r) hr (by omega)
      refine ⟨ih1, by rw [ih2, hwr], by rw [ih3, hnx], by rw [ih4, hdim],
        by omega, ⟨e + 1, ?_⟩, ih7⟩
      rw [ih6, read_live list r h hm, ← List.drop_one, List.drop_drop]
      congr 1
      omega
    · next hcond =>
      refine ⟨h, rfl, rfl, rfl, le_refl _, ⟨0, by rw [List.drop_zero]⟩, ?_⟩
      intro hc
      exact hcond ⟨hc.1, hc.2⟩

-- ==========================================================================
-- Contiguity and lap-invariant lemmas
-- ==========================================================================

theorem contig_tail (a : consline) (t : List consline) (h : Contig (a :: t)) :
    Contig t := by
  cases t with
  | nil => trivial
  | cons b t2 => exact h.2

theorem contig_head_le (a : consline) (t : List consline)
    (h : Contig (a :: t)) : ∀ d ∈ a :: t, a.pos ≤ d.pos := by
  induction t generalizing a with
  | nil =>
    intro d hd
    simp at hd
    subst hd
    exact le_rfl
  | cons b t2 ih =>
    intro d hd
    rcases List.mem_cons.mp hd with he | he
    · subst he
      exact le_rfl
    · have hb := ih b h.2 d he
      have : a.pos ≤ b.pos := by
        have := h.1
        omega
      omega

theorem lapEnd_cons (a b : consline) (t : List consline) :
    lapEnd (a :: b :: t) = lapEnd (b :: t) := rfl

theorem contig_end_le (a : consline) (t : List consline)
    (h : Contig (a :: t)) : ∀ d ∈ a :: t, d.pos + d.len ≤ lapEnd (a :: t) := by
  induction t generalizing a with
  | nil =>
    intro d hd
    simp at hd
    simp [hd, lapEnd]
  | cons b t2 ih =>
    intro d hd
    rw [lapEnd_cons]
    rcases List.mem_cons.mp hd with he | he
    · subst he
      have hb := ih b h.2 b (List.mem_cons_self b t2)
      have h1 := h.1
      omega
    · exact ih b h.2 d he

theorem contig_sum (a : consline) (t : List consline) (h : Contig (a :: t)) :
    a.pos + sumLen (a :: t) = lapEnd (a :: t) := by
  induction t generalizing a with
  | nil =>
    simp [sumLen, lapEnd]
  | cons b t2 ih =>
    have hb := ih b h.2
    have h1 := h.1
    rw [lapEnd_cons]
    simp only [sumLen, List.map_cons, List.sum_cons] at hb ⊢
    omega

theorem contig_pairwise (l : List consline) (h : Contig l) :
    l.Pairwise (fun a b => a.pos + a.len ≤ b.pos) := by
  induction l with
  | nil => exact List.Pairwise.nil
  | cons a t ih =>
    refine List.Pairwise.cons ?_ (ih (contig_tail a t h))
    intro d hd
    cases t with
    | nil => simp at hd
    | cons b t2 =>
      have hble := contig_head_le b t2 h.2 d hd
      have h1 := h.1
      omega

theorem lapEnd_le (B : Nat) (a : consline) (t : List consline)
    (hb : InBounds B (a :: t)) : lapEnd (a :: t) ≤ B := by
  induction t generalizing a with
  | nil => exact (hb a (List.mem_cons_self a [])).2
  | cons b t2 ih =>
    rw [lapEnd_cons]
    apply ih
    intro d hd
    exact hb d (List.mem_cons_of_mem a hd)

/-- Non-overlap of the live window, from the two-lap shape. -/
theorem lapinv_pairwise (B cur : Nat) (l : List consline)
    (h : LapInv B cur l) : l.Pairwise rangesDisjoint := by
  obtain ⟨k, hk, hb, hc1, hc2, hcur, hend⟩ := h
  have hsplit : l = l.take k ++ l.drop k := (List.take_append_drop k l).symm
  rw [hsplit, List.pairwise_append]
  refine ⟨(contig_pairwise _ hc1).imp (fun h => Or.inl h),
    (contig_pairwise _ hc2).imp (fun h => Or.inl h), ?_⟩
  intro a ha b hbm
  right
  have h1 := hcur a ha
  cases hd : l.drop k with
  | nil =>
    rw [hd] at hbm
    simp at hbm
  | cons c t2 =>
    rw [hd] at hbm hc2
    rcases hend with he | he
    · rw [hd] at he
      simp at he
    · rw [hd] at he
      have h2 := contig_end_le c t2 hc2 b hbm
      omega

/-- Byte bound of the live window, from the two-lap shape. -/
theorem lapinv_sum (B cur : Nat) (l : List consline) (h : LapInv B cur l)
    (hcurB : cur ≤ B) : sumLen l ≤ B := by
  obtain ⟨k, hk, hb, hc1, hc2, hcur, hend⟩ := h
  have hsplit : sumLen l = sumLen (l.take k) + sumLen (l.drop k) := by
    conv_lhs => rw [← List.take_append_drop k l]
    simp [sumLen]
  have hold : sumLen (l.take k) + cur ≤ B := by
    cases ht : l.take k with
    | nil => simp [sumLen]; omega
    | cons a t =>
      rw [ht] at hc1 hcur
      have hs := contig_sum a t hc1
      have hle : lapEnd (a :: t) ≤ B := by
        apply lapEnd_le
        intro d hd
        apply hb
        have : d ∈ l.take k := by rw [ht]; exact hd
        exact List.mem_of_mem_take this
      have hcu := hcur a (List.mem_cons_self a t)
      omega
  have hcurlap : sumLen (l.drop k) ≤ cur := by
    cases hd : l.drop k with
    | nil => simp [sumLen]
    | cons a t =>
      rw [hd] at hc2 hend
      rcases hend with he | he
      · simp at he
      · have hs := contig_sum a t hc2
        omega
  omega

theorem evictedFifo_refl (l : List consline) : evictedFifo l l :=
  ⟨0, [], by simp⟩

theorem evictedFifo_tail (l l' : List consline) (h : evictedFifo l l') :
    evictedFifo l l'.tail := by
  obtain ⟨e, news, he⟩ := h
  cases hd : List.drop e l with
  | nil =>
    refine ⟨l.length, news.tail, ?_⟩
    rw [List.drop_length, he, hd]
    simp
  | cons a t =>
    refine ⟨e + 1, news, ?_⟩
    rw [he, hd]
    simp only [List.cons_append, List.tail_cons]
    have h2 : List.drop (e + 1) l = (List.drop e l).tail := (List.tail_drop l e).symm
    rw [h2, hd]
    rfl

theorem evictedFifo_append (l l' : List consline) (d : consline)
    (h : evictedFifo l l') : evictedFifo l (l' ++ [d]) := by
  obtain ⟨e, news, he⟩ := h
  exact ⟨e, news ++ [d], by rw [he, List.append_assoc]⟩

theorem evictedFifo_dropn (l l' : List consline) (e' : Nat)
    (h : evictedFifo l l') : evictedFifo l (l'.drop e') := by
  induction e' with
  | zero => simpa using h
  | succ e2 ih =>
    rw [← List.tail_drop]
    exact evictedFifo_tail _ _ ih

theorem lapinv_nil (B cur : Nat) : LapInv B cur [] := by
  refine ⟨0, Nat.le_refl _, ?_, trivial, trivial, ?_, Or.inl rfl⟩
  · intro d hd
    simp at hd
  · intro d hd
    simp at hd

theorem lapinv_tail (B cur : Nat) (l : List consline) (h : LapInv B cur l) :
    LapInv B cur l.tail := by
  cases l with
  | nil => exact lapinv_nil B cur
  | cons a t =>
    obtain ⟨k, hk, hb, hc1, hc2, hcur, hend⟩ := h
    simp only [List.tail_cons]
    cases k with
    | zero =>
      simp only [List.take_zero, List.drop_zero] at hc1 hc2 hcur hend
      refine ⟨0, Nat.zero_le _, ?_, trivial, ?_, ?_, ?_⟩
      · intro d hd
        exact hb d (List.mem_cons_of_mem a hd)
      · simp only [List.drop_zero]
        exact contig_tail a t hc2
      · intro d hd
        simp at hd
      · simp only [List.drop_zero]
        cases t with
        | nil => exact Or.inl rfl
        | cons b t2 =>
          right
          rcases hend with he | he
          · simp at he
          · rw [← lapEnd_cons a b t2]
            exact he
    | succ k2 =>
      simp only [List.take_succ_cons, List.drop_succ_cons] at hc1 hc2 hcur hend
      simp only [List.length_cons] at hk
      refine ⟨k2, by omega, ?_, contig_tail a _ hc1, hc2, ?_, hend⟩
      · intro d hd
        exact hb d (List.mem_cons_of_mem a hd)
      · intro d hd
        exact hcur d (List.mem_cons_of_mem a hd)

theorem lapinv_dropn (B cur : Nat) (l : List consline) (e : Nat)
    (h : LapInv B cur l) : LapInv B cur (l.drop e) := by
  induction e with
  | zero => simpa using h
  | succ e2 ih =>
    rw [← List.tail_drop]
    exact lapinv_tail B cur _ ih

theorem contig_snoc (l : List consline) (d : consline) (h : Contig l)
    (he : l = [] ∨ lapEnd l = d.pos) : Contig (l ++ [d]) := by
  induction l with
  | nil => trivial
  | cons a t ih =>
    rcases he with he | he
    · simp at he
    · cases t with
      | nil =>
        simp only [lapEnd] at he
        exact ⟨he.symm, trivial⟩
      | cons b t2 =>
        rw [lapEnd_cons] at he
        exact ⟨h.1, ih h.2 (Or.inr he)⟩

theorem lapEnd_snoc (l : List consline) (d : consline) :
    lapEnd (l ++ [d]) = d.pos + d.len := by
  induction l with
  | nil => rfl
  | cons a t ih =>
    cases t with
    | nil => rfl
    | cons b t2 => exact ih

theorem contig_dropn (l : List consline) (e : Nat) (h : Contig l) :
    Contig (l.drop e) := by
  induction e generalizing l with
  | zero => simpa using h
  | succ e2 ih =>
    cases l with
    | nil => trivial
    | cons a t =>
      rw [List.drop_succ_cons]
      exact ih t (contig_tail a t h)

theorem lapEnd_dropn (l : List consline) (e : Nat) (hne : l.drop e ≠ []) :
    lapEnd (l.drop e) = lapEnd l := by
  induction e generalizing l with
  | zero => simp
  | succ e2 ih =>
    cases l with
    | nil => simp at hne
    | cons a t =>
      rw [List.drop_succ_cons] at hne ⊢
      rw [ih t hne]
      cases t with
      | nil => simp at hne
      | cons b t2 => rfl

theorem liveOf_head (list : Nat → consline) (r : xyz_rbam) (h : RInv r)
    (hu : 1 ≤ r.used) :
    liveOf list r = list r.rd :: (liveOf list r).tail := by
  obtain ⟨hd, h2, h3, _, _, _⟩ := h
  have hu2 : r.used = (r.used - 1) + 1 := by omega
  simp only [liveOf]
  rw [hu2, List.range_succ_eq_map]
  simp only [List.map_cons, List.tail_cons, Nat.add_zero]
  rw [Nat.mod_eq_of_lt h2]

/-- Appending the pending line at the staging position to a live window in
two-lap shape (no wrap): the previous lap must lie entirely at or beyond the
new end position, which the first eviction loop guarantees via its head
line. -/
theorem lapinv_snoc_main (B cur np ll : Nat) (l : List consline)
    (h : LapInv B cur l)
    (hhd : ∀ a t, l = a :: t → (a.pos < cur ∨ np ≤ a.pos))
    (hnp : np = cur + ll) (hll : 1 ≤ ll) (hB : np ≤ B) :
    LapInv B np (l ++ [⟨cur, ll⟩]) := by
  obtain ⟨k, hk, hb, hc1, hc2, hcur, hend⟩ := h
  have htake : (l ++ [(⟨cur, ll⟩ : consline)]).take k = l.take k :=
    List.take_append_of_le_length hk
  have hdrop : (l ++ [(⟨cur, ll⟩ : consline)]).drop k = l.drop k ++ [⟨cur, ll⟩] :=
    List.drop_append_of_le_length hk
  refine ⟨k, ?_, ?_, ?_, ?_, ?_, ?_⟩
  · rw [List.length_append]
    omega
  · intro d hd
    rcases List.mem_append.mp hd with hm | hm
    · exact hb d hm
    · simp at hm
      subst hm
      exact ⟨hll, by simp; omega⟩
  · rw [htake]
    exact hc1
  · rw [hdrop]
    refine contig_snoc _ _ hc2 ?_
    rcases hend with he | he
    · exact Or.inl he
    · exact Or.inr he
  · rw [htake]
    intro d hd
    cases hl : l with
    | nil =>
      rw [hl] at hd
      simp at hd
    | cons a t =>
      rcases Nat.eq_zero_or_pos k with hk0 | hk0
      · rw [hk0] at hd
        simp at hd
      · have hha : a ∈ l.take k := by
          rw [hl]
          rcases Nat.exists_eq_add_of_le hk0 with ⟨k2, hk2⟩
          rw [hk2, Nat.add_comm, List.take_succ_cons]
          exact List.mem_cons_self a _
        have hcura := hcur a hha
        rcases hhd a t hl with hlt | hge
        · omega
        · have hshape : l.take k = a :: (l.tail.take (k - 1)) := by
            rw [hl]
            rcases Nat.exists_eq_add_of_le hk0 with ⟨k2, hk2⟩
            rw [hk2, Nat.add_comm, List.take_succ_cons]
            simp
          rw [hshape] at hd
          have hch := contig_head_le a _ (by rw [← hshape]; exact hc1) d hd
          omega
  · right
    rw [hdrop, lapEnd_snoc]
    simp
    omega

/-- Appending the restarted line at position 0 after a wrap: every surviving
line lies at or beyond the new end position (the second eviction loop
guarantees this via the head line), so the survivors become the previous
lap and the new line is the whole current lap. -/
theorem lapinv_wrap_snoc (B ll : Nat) (l : List consline)
    (hc : Contig l) (hb : InBounds B l)
    (hge : ∀ a t, l = a :: t → ll ≤ a.pos)
    (hll : 1 ≤ ll) (hB : ll ≤ B) :
    LapInv B ll (l ++ [⟨0, ll⟩]) := by
  refine ⟨l.length, ?_, ?_, ?_, ?_, ?_, ?_⟩
  · rw [List.length_append]
    omega
  · intro d hd
    rcases List.mem_append.mp hd with hm | hm
    · exact hb d hm
    · simp at hm
      subst hm
      exact ⟨hll, by simp; omega⟩
  · rw [List.take_left]
    exact hc
  · rw [List.drop_left]
    trivial
  · rw [List.take_left]
    intro d hd
    cases hl : l with
    | nil =>
      rw [hl] at hd
      simp at hd
    | cons a t =>
      rw [hl] at hd
      have h1 := hge a t hl
      have h2 := contig_head_le a t (by rw [← hl]; exact hc) d hd
      omega
  · right
    rw [List.drop_left]
    simp [lapEnd]

/-- The publish step shared by both branches of `cons_store`: write the
staged line, make room if the ring became full, and stage the next slot.
Preserves well-formedness and the two-lap shape at the new staging
position, evicting oldest-first. -/
theorem publish_spec (B : Nat) (list2 : Nat → consline) (r3 r5 : xyz_rbam)
    (list3 : Nat → consline) (newpos : Nat)
    (hR : RInv r3) (hroom : r3.used ≤ r3.dim - 2)
    (hr5 : r5 = (if XYZ_RBAM_FULL (xyz_rbam_write r3) then
      xyz_rbam_read (xyz_rbam_write r3) else xyz_rbam_write r3))
    (hl3 : list3 = updFn list2 r5.wr { pos := newpos, len := 0 })
    (hlap : LapInv B newpos (liveOf list2 r3 ++ [list2 r3.wr])) :
    RInv r5 ∧ (list3 r5.wr).pos = newpos ∧
    LapInv B newpos (liveOf list3 r5) ∧
    evictedFifo (liveOf list2 r3) (liveOf list3 r5) ∧
    r5.dim = r3.dim := by
  have hd3 : 2 ≤ r3.dim := hR.1
  have hnf3 : XYZ_RBAM_FULL r3 = false := by
    cases hfl : XYZ_RBAM_FULL r3 with
    | false => rfl
    | true =>
      have := (full_iff r3 hR).mp hfl
      omega
  obtain ⟨hR4, hrd4, hdim4, hused4, hwr4⟩ := write_spec r3 hR hnf3
  have hlive4 : liveOf list2 (xyz_rbam_write r3) =
      liveOf list2 r3 ++ [list2 r3.wr] := write_live list2 r3 hR hnf3
  have hcommon : RInv r5 ∧
      (liveOf list2 r5 = liveOf list2 r3 ++ [list2 r3.wr] ∨
       liveOf list2 r5 = (liveOf list2 r3 ++ [list2 r3.wr]).tail) ∧
      r5.dim = r3.dim := by
    by_cases hf4 : XYZ_RBAM_FULL (xyz_rbam_write r3) = true
    · rw [if_pos hf4] at hr5
      have hm4 : XYZ_RBAM_MORE (xyz_rbam_write r3) = true := by
        rw [more_iff _ hR4]
        have := (full_iff _ hR4).mp hf4
        omega
      obtain ⟨hR5, _, _, hdim5, _, _, _⟩ := read_spec _ hR4 hm4
      rw [hr5]
      refine ⟨hR5, Or.inr ?_, by rw [hdim5, hdim4]⟩
      rw [read_live list2 _ hR4 hm4, hlive4]
    · rw [if_neg hf4] at hr5
      rw [hr5]
      exact ⟨hR4, Or.inl hlive4, hdim4⟩
  obtain ⟨hR5, hlv5, hdim5⟩ := hcommon
  have hupd : liveOf list3 r5 = liveOf list2 r5 := by
    rw [hl3]
    exact updFn_live_wr list2 r5 hR5 _
  have hpos3 : (list3 r5.wr).pos = newpos := by
    rw [hl3]
    simp [updFn]
  refine ⟨hR5, hpos3, ?_, ?_, hdim5⟩
  · rw [hupd]
    rcases hlv5 with he | he
    · rw [he]
      exact hlap
    · rw [he]
      exact lapinv_tail _ _ _ hlap
  · rw [hupd]
    have h1 : evictedFifo (liveOf list2 r3) (liveOf list2 r3 ++ [list2 r3.wr]) :=
      evictedFifo_append _ _ _ (evictedFifo_refl _)
    rcases hlv5 with he | he
    · rw [he]
      exact h1
    · rw [he]
      exact evictedFifo_tail _ _ h1

theorem evictedFifo_trans (a b c : List consline) (h1 : evictedFifo a b)
    (h2 : evictedFifo b c) : evictedFifo a c := by
  obtain ⟨e, news, he⟩ := h1
  obtain ⟨e2, news2, he2⟩ := h2
  refine ⟨e + e2, (news.drop (e2 - (List.drop e a).length)) ++ news2, ?_⟩
  rw [he2, he, List.drop_append_eq_append_drop, List.drop_drop, List.append_assoc]


/-- The per-line storing step preserves the console invariant and evicts
oldest-first (the new live window is a suffix of the old one plus the new
line), leaving the capacities and the failure counter alone. -/
theorem cons_store_inv (pd : cons_s) (text : Nat → Nat) (s0 ll0 : Nat)
    (h : ConsInv pd) :
    ConsInv (cons_store pd text s0 ll0) ∧
    evictedFifo (liveList pd) (liveList (cons_store pd text s0 ll0)) ∧
    (cons_store pd text s0 ll0).bufdim = pd.bufdim ∧
    (cons_store pd text s0 ll0).rbam.dim = pd.rbam.dim ∧
    (cons_store pd text s0 ll0).lockfailures = pd.lockfailures := by
  obtain ⟨hR0, hcur0, hlap0⟩ := h
  simp only [liveList] at hlap0
  by_cases hskip : ll0 + 1 > pd.bufdim
  · have heq : cons_store pd text s0 ll0 = pd := by
      simp only [cons_store, if_pos hskip]
    rw [heq]
    refine ⟨⟨hR0, hcur0, ?_⟩, evictedFifo_refl _, rfl, rfl, rfl⟩
    simp only [liveList]
    exact hlap0
  · simp only [cons_store, if_neg hskip]
    set L := ll0 + 1 with hLdef
    set r1 := if XYZ_RBAM_FULL pd.rbam = true then xyz_rbam_read pd.rbam
      else pd.rbam with hr1def
    set np0 := (pd.linelist r1.wr).pos + L with hnp0def
    set r2 := evict1 pd.linelist np0 r1 r1.dim with hr2def
    set list1 := if np0 > pd.bufdim then
        updFn pd.linelist r2.wr { pos := 0, len := (pd.linelist r2.wr).len }
      else pd.linelist with hlist1def
    set np := if np0 > pd.bufdim then L else np0 with hnpdef
    set r3 := if np0 > pd.bufdim then evict2 list1 np r2 r2.dim else r2
      with hr3def
    set list2 := updFn list1 r3.wr { pos := (list1 r3.wr).pos, len := L }
      with hlist2def
    set r4 := xyz_rbam_write r3 with hr4def
    set r5 := if XYZ_RBAM_FULL r4 = true then xyz_rbam_read r4 else r4
      with hr5def
    set list3 := updFn list2 r5.wr { pos := np, len := 0 } with hlist3def
    -- Step 1: make room in the ring if it is full.
    have hfacts1 : RInv r1 ∧ r1.wr = pd.rbam.wr ∧ r1.dim = pd.rbam.dim ∧
        r1.used + 2 ≤ r1.dim ∧
        ∃ e1, liveOf pd.linelist r1 = (liveOf pd.linelist pd.rbam).drop e1 := by
      rw [hr1def]
      by_cases hf : XYZ_RBAM_FULL pd.rbam = true
      · rw [if_pos hf]
        have hm : XYZ_RBAM_MORE pd.rbam = true := by
          rw [more_iff _ hR0]
          have h1 := (full_iff _ hR0).mp hf
          have h2 := hR0.1
          omega
        obtain ⟨hrr, hw, hx, hdm, hus, hon, hrd⟩ := read_spec _ hR0 hm
        refine ⟨hrr, hw, hdm, ?_, ⟨1, ?_⟩⟩
        · have h1 := (full_iff _ hR0).mp hf
          have h2 := hR0.1
          rw [hus, hdm]
          omega
        · rw [read_live pd.linelist _ hR0 hm, List.drop_one]
      · rw [if_neg hf]
        refine ⟨hR0, rfl, rfl, ?_, ⟨0, by rw [List.drop_zero]⟩⟩
        have hle := rinv_used_le _ hR0
        have hd2 := hR0.1
        have hne : ¬ pd.rbam.used = pd.rbam.dim - 1 :=
          fun he => hf ((full_iff _ hR0).mpr he)
        omega
    obtain ⟨hR1, hwr1, hdim1, hroom1, e1, hlv1⟩ := hfacts1
    have hc0 : (pd.linelist r1.wr).pos = (pd.linelist pd.rbam.wr).pos := by
      rw [hwr1]
    -- Step 2: the first eviction loop.
    obtain ⟨hR2, hwr2, hnx2, hdim2, hused2, ⟨e2, hlv2⟩, hcond2⟩ :=
      evict1_spec pd.linelist np0 r1.dim r1 hR1 (by omega)
    rw [← hr2def] at hR2 hwr2 hnx2 hdim2 hused2 hlv2 hcond2
    have hlap1 : LapInv pd.bufdim (pd.linelist r1.wr).pos
        (liveOf pd.linelist r1) := by
      rw [hc0, hlv1]
      exact lapinv_dropn _ _ _ e1 hlap0
    have hlap2 : LapInv pd.bufdim (pd.linelist r1.wr).pos
        (liveOf pd.linelist r2) := by
      rw [hlv2]
      exact lapinv_dropn _ _ _ e2 hlap1
    -- The head of the surviving window clears the pending range (or is
    -- beyond it, forcing the wrap branch to clear it).
    have hhd : ∀ a t, liveOf pd.linelist r2 = a :: t →
        (a.pos < (pd.linelist r1.wr).pos ∨ np0 ≤ a.pos) := by
      intro a t hat
      have hlen := liveOf_length pd.linelist r2
      rw [hat] at hlen
      simp only [List.length_cons] at hlen
      have hu : 1 ≤ r2.used := by omega
      have hm : XYZ_RBAM_MORE r2 = true := (more_iff r2 hR2).mpr hu
      have hhead := liveOf_head pd.linelist r2 hR2 hu
      rw [hat] at hhead
      have ha : a = pd.linelist r2.rd := by
        simpa using congrArg List.head? hhead
      by_contra hno
      push_neg at hno
      apply hcond2
      refine ⟨?_, ?_, hm⟩
      · rw [hwr2, ← ha]
        omega
      · rw [← ha]
        omega
    -- FIFO steps for the first two transitions.
    have f01 : evictedFifo (liveOf pd.linelist pd.rbam)
        (liveOf pd.linelist r1) := by
      rw [hlv1]
      exact evictedFifo_dropn _ _ e1 (evictedFifo_refl _)
    have f12 : evictedFifo (liveOf pd.linelist r1)
        (liveOf pd.linelist r2) := by
      rw [hlv2]
      exact evictedFifo_dropn _ _ e2 (evictedFifo_refl _)
    by_cases hwrap : np0 > pd.bufdim
    · -- Wrap branch: restart the line at position 0.
      have hlist1 : list1 =
          updFn pd.linelist r2.wr { pos := 0, len := (pd.linelist r2.wr).len } := by
        rw [hlist1def, if_pos hwrap]
      have hnp : np = L := by rw [hnpdef, if_pos hwrap]
      have hr3 : r3 = evict2 list1 np r2 r2.dim := by
        rw [hr3def, if_pos hwrap]
      obtain ⟨hR3, hwr3, hnx3, hdim3, hused3, ⟨e3, hlv3⟩, hcond3⟩ :=
        evict2_spec list1 np r2.dim r2 hR2 (by omega)
      rw [← hr3] at hR3 hwr3 hnx3 hdim3 hused3 hlv3 hcond3
      have hlv12 : liveOf list1 r2 = liveOf pd.linelist r2 := by
        rw [hlist1]
        exact updFn_live_wr pd.linelist r2 hR2 _
      -- Before the wrap the whole surviving window is a single lap ending
      -- at the staging position: any first-lap head would satisfy the first
      -- eviction condition.
      have hshape2 : Contig (liveOf pd.linelist r2) ∧
          InBounds pd.bufdim (liveOf pd.linelist r2) ∧
          (liveOf pd.linelist r2 = [] ∨
           lapEnd (liveOf pd.linelist r2) = (pd.linelist r1.wr).pos) := by
        obtain ⟨k, hk, hb, hc1, hc2, hcur, hend⟩ := hlap2
        have htk : (liveOf pd.linelist r2).take k = [] := by
          cases ht : (liveOf pd.linelist r2).take k with
          | nil => rfl
          | cons a t =>
            exfalso
            have ha : a ∈ (liveOf pd.linelist r2).take k := by
              rw [ht]
              exact List.mem_cons_self a t
            have hcura := hcur a ha
            have hamem := List.mem_of_mem_take ha
            have hbnd := hb a hamem
            obtain ⟨t2, hl⟩ : ∃ t2, liveOf pd.linelist r2 = a :: t2 := by
              cases hl : liveOf pd.linelist r2 with
              | nil =>
                rw [hl] at ht
                simp at ht
              | cons x t2 =>
                rw [hl] at ht
                cases k with
                | zero => simp at ht
                | succ k2 =>
                  rw [List.take_succ_cons] at ht
                  injection ht with h1 _
                  exact ⟨t2, by rw [h1]⟩
            rcases hhd a t2 hl with h1 | h2
            · omega
            · omega
        have hdk : (liveOf pd.linelist r2).drop k = liveOf pd.linelist r2 := by
          cases hl : liveOf pd.linelist r2 with
          | nil => rw [List.drop_nil]
          | cons x t2 =>
            cases k with
            | zero => rw [List.drop_zero]
            | succ k2 =>
              exfalso
              rw [hl, List.take_succ_cons] at htk
              simp at htk
        rw [hdk] at hc2 hend
        exact ⟨hc2, hb, hend⟩
      have hcontig3 : Contig (liveOf list1 r3) := by
        rw [hlv3, hlv12]
        exact contig_dropn _ e3 hshape2.1
      have hbnd3 : InBounds pd.bufdim (liveOf list1 r3) := by
        rw [hlv3, hlv12]
        intro d hd
        exact hshape2.2.1 d (List.mem_of_mem_drop hd)
      -- The head of the post-wrap survivors clears the restarted range.
      have hgeB : ∀ a t, liveOf list1 r3 = a :: t → np ≤ a.pos := by
        intro a t hat
        have hlen := liveOf_length list1 r3
        rw [hat] at hlen
        simp only [List.length_cons] at hlen
        have hu : 1 ≤ r3.used := by omega
        have hm : XYZ_RBAM_MORE r3 = true := (more_iff r3 hR3).mpr hu
        have hhead := liveOf_head list1 r3 hR3 hu
        rw [hat] at hhead
        have ha : a = list1 r3.rd := by
          simpa using congrArg List.head? hhead
        by_contra hno
        push_neg at hno
        apply hcond3
        refine ⟨?_, hm⟩
        rw [← ha]
        omega
      have hslotB : list2 r3.wr = ⟨0, L⟩ := by
        rw [hlist2def, hwr3, hlist1]
        simp [updFn]
      have hlive23 : liveOf list2 r3 = liveOf list1 r3 := by
        rw [hlist2def]
        exact updFn_live_wr list1 r3 hR3 _
      have hlapB : LapInv pd.bufdim np (liveOf list2 r3 ++ [list2 r3.wr]) := by
        rw [hlive23, hslotB, hnp]
        exact lapinv_wrap_snoc pd.bufdim L (liveOf list1 r3) hcontig3 hbnd3
          (fun a t hat => by rw [← hnp]; exact hgeB a t hat)
          (by omega) (by omega)
      obtain ⟨hR5, hpos5, hlap5, hfifo35, hdim53⟩ :=
        publish_spec pd.bufdim list2 r3 r5 list3 np hR3 (by omega)
          (by rw [hr5def, hr4def]) hlist3def hlapB
      have f23 : evictedFifo (liveOf pd.linelist r2) (liveOf list2 r3) := by
        rw [hlive23, hlv3, hlv12]
        exact evictedFifo_dropn _ _ e3 (evictedFifo_refl _)
      simp only [ConsInv, liveList]
      refine ⟨⟨hR5, ?_, ?_⟩, ?_, trivial, ?_, trivial⟩
      · rw [hpos5, hnp]
        omega
      · rw [hpos5]
        exact hlap5
      · exact evictedFifo_trans _ _ _
          (evictedFifo_trans _ _ _ (evictedFifo_trans _ _ _ f01 f12) f23)
          hfifo35
      · rw [hdim53, hdim3, hdim2, hdim1]
    · -- No-wrap branch: append the line at the staging position.
      have hlist1 : list1 = pd.linelist := by
        rw [hlist1def, if_neg hwrap]
      have hnp : np = np0 := by rw [hnpdef, if_neg hwrap]
      have hr3 : r3 = r2 := by rw [hr3def, if_neg hwrap]
      have hslot : list2 r3.wr = ⟨(pd.linelist r1.wr).pos, L⟩ := by
        rw [hlist2def, hr3, hlist1, hwr2]
        simp [updFn]
      have hlive23 : liveOf list2 r3 = liveOf pd.linelist r2 := by
        rw [hlist2def, hr3, hlist1]
        exact updFn_live_wr pd.linelist r2 hR2 _
      have hlapA : LapInv pd.bufdim np (liveOf list2 r3 ++ [list2 r3.wr]) := by
        rw [hlive23, hslot]
        exact lapinv_snoc_main pd.bufdim (pd.linelist r1.wr).pos np L _ hlap2
          (fun a t hat => by rw [hnp]; exact hhd a t hat)
          (by rw [hnp, hnp0def]) (by omega) (by omega)
      obtain ⟨hR5, hpos5, hlap5, hfifo35, hdim53⟩ :=
        publish_spec pd.bufdim list2 r3 r5 list3 np (by rw [hr3]; exact hR2)
          (by rw [hr3]; omega) (by rw [hr5def, hr4def]) hlist3def hlapA
      have f25 : evictedFifo (liveOf pd.linelist r2) (liveOf list3 r5) := by
        rw [← hlive23]
        exact hfifo35
      simp only [ConsInv, liveList]
      refine ⟨⟨hR5, ?_, ?_⟩, ?_, trivial, ?_, trivial⟩
      · rw [hpos5, hnp]
        omega
      · rw [hpos5]
        exact hlap5
      · exact evictedFifo_trans _ _ _
          (evictedFifo_trans _ _ _ f01 f12) f25
      · rw [hdim53, hr3, hdim2, hdim1]

/-- The outer line loop preserves the console invariant, evicts
oldest-first across the whole call, and leaves capacities and the failure
counter alone. -/
theorem cons_loop_inv (text : Nat → Nat) (maxline : Nat) :
    ∀ n idx len pd, len - idx ≤ n → ConsInv pd →
    ConsInv (cons_loop pd text maxline idx len).1 ∧
    evictedFifo (liveList pd) (liveList (cons_loop pd text maxline idx len).1) ∧
    (cons_loop pd text maxline idx len).1.bufdim = pd.bufdim ∧
    (cons_loop pd text maxline idx len).1.rbam.dim = pd.rbam.dim ∧
    (cons_loop pd text maxline idx len).1.lockfailures = pd.lockfailures := by
  intro n
  induction n with
  | zero =>
    intro idx len pd hn h
    rw [cons_loop, if_neg (by omega)]
    exact ⟨h, evictedFifo_refl _, rfl, rfl, rfl⟩
  | succ n ih =>
    intro idx len pd hn h
    rw [cons_loop]
    by_cases hil : idx < len
    · rw [if_pos hil]
      obtain ⟨hs1, hs2, hs3, hs4, hs5⟩ :=
        cons_store_inv pd text idx (cons_scan text maxline len idx 0).2.2 h
      by_cases h2 : (cons_scan text maxline len idx 0).1 -
          (cons_scan text maxline len idx 0).2.1 < len - idx
      · rw [dif_pos h2]
        obtain ⟨hi1, hi2, hi3, hi4, hi5⟩ :=
          ih (cons_scan text maxline len idx 0).2.1
            (cons_scan text maxline len idx 0).1
            (cons_store pd text idx (cons_scan text maxline len idx 0).2.2)
            (by omega) hs1
        exact ⟨hi1, evictedFifo_trans _ _ _ hs2 hi2, by rw [hi3, hs3],
          by rw [hi4, hs4], by rw [hi5, hs5]⟩
      · rw [dif_neg h2]
        exact ⟨hs1, hs2, hs3, hs4, hs5⟩
    · rw [if_neg hil]
      exact ⟨h, evictedFifo_refl _, rfl, rfl, rfl⟩

/-- A whole `console_write` call preserves the console invariant, evicts
oldest-first, and leaves the capacities alone (the failure counter may
grow). -/
theorem console_write_inv (lock1 lock2 : Bool) (maxline : Nat) (pd : cons_s)
    (text : Nat → Nat) (len : Nat) (h : ConsInv pd) :
    ConsInv (console_write lock1 lock2 maxline pd text len).1 ∧
    evictedFifo (liveList pd)
      (liveList (console_write lock1 lock2 maxline pd text len).1) ∧
    (console_write lock1 lock2 maxline pd text len).1.bufdim = pd.bufdim ∧
    (console_write lock1 lock2 maxline pd text len).1.rbam.dim = pd.rbam.dim := by
  rw [console_write]
  by_cases h0 : len = 0 ∨ text 0 = 0
  · rw [if_pos h0]
    exact ⟨h, evictedFifo_refl _, rfl, rfl⟩
  · rw [if_neg h0]
    by_cases hl1 : lock1
    · simp only [if_pos hl1]
      obtain ⟨h1, h2, h3, h4, _⟩ := cons_loop_inv text maxline
        (if maxline * 4 < len then maxline * 4 else len) 0
        (if maxline * 4 < len then maxline * 4 else len) pd (by omega) h
      exact ⟨h1, h2, h3, h4⟩
    · simp only [if_neg hl1]
      by_cases hl2 : lock2
      · simp only [if_pos hl2]
        obtain ⟨h1, h2, h3, h4, _⟩ := cons_loop_inv text maxline
          (if maxline * 4 < len then maxline * 4 else len) 0
          (if maxline * 4 < len then maxline * 4 else len)
          { pd with lockfailures := pd.lockfailures + 1 } (by omega) h
        exact ⟨h1, h2, h3, h4⟩
      · simp only [if_neg hl2]
        exact ⟨h, evictedFifo_refl _, trivial, trivial⟩

/-- The initial console satisfies the invariant for any ring dimension of
at least 2. -/
theorem cons_init_inv (bufdim dim : Nat) (hdim : 2 ≤ dim) :
    ConsInv (cons_init bufdim dim) ∧
    (cons_init bufdim dim).bufdim = bufdim ∧
    (cons_init bufdim dim).rbam.dim = dim := by
  have hd0 : ¬ dim < 2 := by omega
  have hrb : (cons_init bufdim dim).rbam =
      { rd := 0, wr := 0, next := 1, dim := dim, used := 0, free := dim - 1 } := by
    simp [cons_init, xyz_rbam_init, hd0]
  have hR : RInv (cons_init bufdim dim).rbam := by
    rw [hrb]
    refine ⟨hdim, ?_, ?_, ?_, ?_, ?_⟩
    · show 0 < dim
      omega
    · show 0 < dim
      omega
    · show 1 = if 0 ≥ dim - 1 then 0 else 0 + 1
      rw [if_neg (by omega)]
    · show 0 = if 0 ≥ 0 then 0 - 0 else dim - 0 + 0
      rw [if_pos (by omega)]
    · show dim - 1 = dim - 0 - 1
      rfl
  have hlv : liveList (cons_init bufdim dim) = [] := by
    simp only [liveList, liveOf, hrb]
    rfl
  refine ⟨⟨hR, ?_, ?_⟩, rfl, by rw [hrb]⟩
  · simp [cons_init]
  · rw [hlv]
    exact lapinv_nil _ _

/-- Folding `console_write` calls preserves the invariant and the
capacities. -/
theorem consoleFold_inv (maxline : Nat) (calls : List appendCall) :
    ∀ pd, ConsInv pd →
    ConsInv (calls.foldl
      (fun pd c => (console_write c.lock1 c.lock2 maxline pd c.text c.len).1) pd) ∧
    (calls.foldl
      (fun pd c => (console_write c.lock1 c.lock2 maxline pd c.text c.len).1)
      pd).bufdim = pd.bufdim ∧
    (calls.foldl
      (fun pd c => (console_write c.lock1 c.lock2 maxline pd c.text c.len).1)
      pd).rbam.dim = pd.rbam.dim := by
  induction calls with
  | nil =>
    intro pd h
    exact ⟨h, rfl, rfl⟩
  | cons c t ih =>
    intro pd h
    rw [List.foldl_cons]
    obtain ⟨h1, _, h3, h4⟩ :=
      console_write_inv c.lock1 c.lock2 maxline pd c.text c.len h
    obtain ⟨g1, g2, g3⟩ := ih _ h1
    exact ⟨g1, by rw [g2, h3], by rw [g3, h4]⟩

/-- Any sequence of `console_write` calls from the initial console keeps
the invariant and the capacities. -/
theorem consoleRun_inv (bufdim dim maxline : Nat) (hdim : 2 ≤ dim)
    (calls : List appendCall) :
    ConsInv (consoleRun bufdim dim maxline calls) ∧
    (consoleRun bufdim dim maxline calls).bufdim = bufdim ∧
    (consoleRun bufdim dim maxline calls).rbam.dim = dim := by
  rw [consoleRun]
  obtain ⟨h0, hb0, hd0⟩ := cons_init_inv bufdim dim hdim
  obtain ⟨g1, g2, g3⟩ := consoleFold_inv maxline calls (cons_init bufdim dim) h0
  exact ⟨g1, by rw [g2, hb0], by rw [g3, hd0]⟩

/-- C4: after any sequence of LineLog append calls, the live (not yet
evicted) line descriptors describe pairwise non-overlapping byte ranges,
the number of live lines never exceeds the descriptor-ring capacity
`dim - 1`, the total bytes of live lines never exceed the byte-store
capacity `bufdim`, and a further append call evicts oldest-first: its live
window is a suffix of the previous one with the new lines appended. -/
theorem claim_C4 (bufdim dim maxline : Nat) (calls : List appendCall)
    (hdim : 2 ≤ dim) :
    (liveList (consoleRun bufdim dim maxline calls)).Pairwise rangesDisjoint ∧
    (liveList (consoleRun bufdim dim maxline calls)).length ≤ dim - 1 ∧
    sumLen (liveList (consoleRun bufdim dim maxline calls)) ≤ bufdim ∧
    ∀ c : appendCall,
      evictedFifo (liveList (consoleRun bufdim dim maxline calls))
        (liveList (console_write c.lock1 c.lock2 maxline
          (consoleRun bufdim dim maxline calls) c.text c.len).1) := by
  obtain ⟨⟨hR, hcur, hlap⟩, hbuf, hd⟩ := consoleRun_inv bufdim dim maxline hdim calls
  refine ⟨?_, ?_, ?_, ?_⟩
  · exact lapinv_pairwise _ _ _ hlap
  · rw [liveList, liveOf_length]
    have := rinv_used_le _ hR
    omega
  · have hs := lapinv_sum _ _ _ hlap hcur
    rw [hbuf] at hs
    exact hs
  · intro c
    exact (console_write_inv c.lock1 c.lock2 maxline _ c.text c.len
      ⟨hR, hcur, hlap⟩).2.1

/-- C4 witness at a concrete instance. -/
theorem claim_C4_witness :
    (liveList (consoleRun 8 3 2 [])).Pairwise rangesDisjoint ∧
    (liveList (consoleRun 8 3 2 [])).length ≤ 3 - 1 ∧
    sumLen (liveList (consoleRun 8 3 2 [])) ≤ 8 ∧
    ∀ c : appendCall,
      evictedFifo (liveList (consoleRun 8 3 2 []))
        (liveList (console_write c.lock1 c.lock2 2
          (consoleRun 8 3 2 []) c.text c.len).1) :=
  claim_C4 8 3 2 [] (by decide)

/-- `evict1` with its condition false at entry returns immediately,
whatever the fuel. -/
theorem evict1_stop (list : Nat → consline) (np : Nat) (r : xyz_rbam)
    (h : ¬ ((list r.wr).pos ≤ (list r.rd).pos ∧ (list r.rd).pos < np ∧
      XYZ_RBAM_MORE r = true)) :
    ∀ fuel, evict1 list np r fuel = r := by
  intro fuel
  cases fuel with
  | zero => rfl
  | succ fuel => rw [evict1, if_neg h]

/-- The scanning loop on a window with no terminator, newline or carriage
return runs to the line limit, advancing the index by the remaining byte
budget. -/
theorem cons_scan_no_term (text : Nat → Nat) (maxline len : Nat) :
    ∀ m k idx, maxline - k = m → k ≤ maxline →
    (∀ j, idx ≤ j → j < idx + m → ¬ (text j = 0 ∨ text j = 10 ∨ text j = 13)) →
    cons_scan text maxline len idx k = (len, idx + m, maxline) := by
  intro m
  induction m with
  | zero =>
    intro k idx hm hk hb
    have hkm : k = maxline := by omega
    rw [cons_scan, if_neg (by omega)]
    rw [hkm, Nat.add_zero]
  | succ m ih =>
    intro k idx hm hk hb
    have h0 := hb idx (Nat.le_refl _) (by omega)
    push_neg at h0
    rw [cons_scan, if_pos (by omega), if_neg h0.1, if_neg (by
      intro hc
      rcases hc with hc | hc
      · exact h0.2.1 hc
      · exact h0.2.2 hc)]
    rw [ih (k + 1) (idx + 1) (by omega) (by omega)
      (fun j hj1 hj2 => hb j (by omega) (by omega))]
    have he : idx + 1 + m = idx + (m + 1) := by omega
    rw [he]

/-- A storing step in the clean regime (line fits, ring not full before or
after, no colliding lines, no wrap): it records the descriptor, copies the
data, writes the terminator, publishes, and stages the next slot. -/
theorem cons_store_clean (pd : cons_s) (text : Nat → Nat) (s0 m : Nat)
    (hskip : ¬ m + 1 > pd.bufdim)
    (hfull : ¬ XYZ_RBAM_FULL pd.rbam = true)
    (hev : ¬ ((pd.linelist pd.rbam.wr).pos ≤ (pd.linelist pd.rbam.rd).pos ∧
      (pd.linelist pd.rbam.rd).pos < (pd.linelist pd.rbam.wr).pos + (m + 1) ∧
      XYZ_RBAM_MORE pd.rbam = true))
    (hwrap : ¬ (pd.linelist pd.rbam.wr).pos + (m + 1) > pd.bufdim)
    (hfull4 : ¬ XYZ_RBAM_FULL (xyz_rbam_write pd.rbam) = true) :
    cons_store pd text s0 m =
    { pd with
      buf := updByte
        (memcpyBytes pd.buf (pd.linelist pd.rbam.wr).pos text s0 m)
        ((pd.linelist pd.rbam.wr).pos + (m + 1) - 1) 0,
      linelist := updFn
        (updFn pd.linelist pd.rbam.wr
          { pos := (pd.linelist pd.rbam.wr).pos, len := m + 1 })
        (xyz_rbam_write pd.rbam).wr
        { pos := (pd.linelist pd.rbam.wr).pos + (m + 1), len := 0 },
      rbam := xyz_rbam_write pd.rbam } := by
  simp only [cons_store, if_neg hskip, if_neg hfull,
    evict1_stop pd.linelist _ pd.rbam hev, if_neg hwrap, if_neg hfull4, updFn,
    if_true, Nat.add_sub_cancel]

set_option maxHeartbeats 1000000 in
/-- C8: appending a single token of length `3 * maxline` with no
terminator, newline or carriage-return bytes to a fresh console (ring of
at least 5 slots, byte store fitting the three lines) stores exactly 3
lines, each descriptor of length `maxline + 1` (the segment plus one
terminator byte), each holding the `maxline` input bytes of its segment
followed by a 0 terminator. -/
theorem claim_C8 (bufdim dim maxline : Nat) (text : Nat → Nat)
    (hm : 1 ≤ maxline) (hdim : 5 ≤ dim) (hbuf : 3 * (maxline + 1) ≤ bufdim)
    (htext : ∀ j, j < 3 * maxline →
      ¬ (text j = 0 ∨ text j = 10 ∨ text j = 13)) :
    liveList (console_write true true maxline (cons_init bufdim dim) text
        (3 * maxline)).1 =
      [⟨0, maxline + 1⟩, ⟨maxline + 1, maxline + 1⟩,
       ⟨2 * (maxline + 1), maxline + 1⟩] ∧
    (∀ k, k < 3 → ∀ i, i < maxline →
      (console_write true true maxline (cons_init bufdim dim) text
        (3 * maxline)).1.buf (k * (maxline + 1) + i) = text (k * maxline + i)) ∧
    (∀ k, k < 3 →
      (console_write true true maxline (cons_init bufdim dim) text
        (3 * maxline)).1.buf (k * (maxline + 1) + maxline) = 0) := by
  have hpd0 : cons_init bufdim dim = { buf := (fun _ => (0 : Nat)), bufdim := bufdim, linelist := (fun _ => (⟨0, 0⟩ : consline)), rbam := ⟨0, 0, 1, dim, 0, dim - 1⟩, lockfailures := 0 } := by
    simp [cons_init, xyz_rbam_init, show ¬ dim < 2 by omega]
  have hw0 : xyz_rbam_write ⟨0, 0, 1, dim, 0, dim - 1⟩ = ⟨0, 1, 2, dim, 1, dim - 2⟩ := by
    have hx : ¬ (1 : Nat) ≥ dim - 1 := by omega
    simp [xyz_rbam_write, XYZ_RBAM_FREE, hx]
    omega
  have hw1 : xyz_rbam_write ⟨0, 1, 2, dim, 1, dim - 2⟩ = ⟨0, 2, 3, dim, 2, dim - 3⟩ := by
    have hx : ¬ (2 : Nat) ≥ dim - 1 := by omega
    simp [xyz_rbam_write, XYZ_RBAM_FREE, hx]
    omega
  have hw2 : xyz_rbam_write ⟨0, 2, 3, dim, 2, dim - 3⟩ = ⟨0, 3, 4, dim, 3, dim - 4⟩ := by
    have hx : ¬ (3 : Nat) ≥ dim - 1 := by omega
    simp [xyz_rbam_write, XYZ_RBAM_FREE, hx]
    omega
  have hA : ¬ maxline + 1 > bufdim := by omega
  have hB1 : ¬ XYZ_RBAM_FULL ⟨0, 0, 1, dim, 0, dim - 1⟩ = true := by simp [XYZ_RBAM_FULL]
  have hB2 : ¬ XYZ_RBAM_FULL ⟨0, 1, 2, dim, 1, dim - 2⟩ = true := by simp [XYZ_RBAM_FULL]
  have hB3 : ¬ XYZ_RBAM_FULL ⟨0, 2, 3, dim, 2, dim - 3⟩ = true := by simp [XYZ_RBAM_FULL]
  have hC1 : ¬ ((0 : Nat) ≤ 0 ∧ (0 : Nat) < 0 + (maxline + 1) ∧
      XYZ_RBAM_MORE ⟨0, 0, 1, dim, 0, dim - 1⟩ = true) := by
    intro h
    simpa [XYZ_RBAM_MORE] using h.2.2
  have hC2 : ¬ (maxline + 1 ≤ 0 ∧ (0 : Nat) < maxline + 1 + (maxline + 1) ∧
      XYZ_RBAM_MORE ⟨0, 1, 2, dim, 1, dim - 2⟩ = true) :=
    fun h => absurd h.1 (by omega)
  have hC3 : ¬ (maxline + 1 + (maxline + 1) ≤ 0 ∧
      (0 : Nat) < maxline + 1 + (maxline + 1) + (maxline + 1) ∧
      XYZ_RBAM_MORE ⟨0, 2, 3, dim, 2, dim - 3⟩ = true) :=
    fun h => absurd h.1 (by omega)
  have hD1 : ¬ 0 + (maxline + 1) > bufdim := by omega
  have hD2 : ¬ maxline + 1 + (maxline + 1) > bufdim := by omega
  have hD3 : ¬ maxline + 1 + (maxline + 1) + (maxline + 1) > bufdim := by omega
  have hE1 : ¬ XYZ_RBAM_FULL (xyz_rbam_write ⟨0, 0, 1, dim, 0, dim - 1⟩) = true := by
    rw [hw0]
    simp [XYZ_RBAM_FULL]
  have hE2 : ¬ XYZ_RBAM_FULL (xyz_rbam_write ⟨0, 1, 2, dim, 1, dim - 2⟩) = true := by
    rw [hw1]
    simp [XYZ_RBAM_FULL]
  have hE3 : ¬ XYZ_RBAM_FULL (xyz_rbam_write ⟨0, 2, 3, dim, 2, dim - 3⟩) = true := by
    rw [hw2]
    simp [XYZ_RBAM_FULL]
  have hstore1 : cons_store { buf := (fun _ => (0 : Nat)), bufdim := bufdim, linelist := (fun _ => (⟨0, 0⟩ : consline)), rbam := ⟨0, 0, 1, dim, 0, dim - 1⟩, lockfailures := 0 } text 0 maxline = { buf := updByte (memcpyBytes (fun _ => (0 : Nat)) 0 text 0 maxline) maxline 0, bufdim := bufdim, linelist := updFn (updFn (fun _ => (⟨0, 0⟩ : consline)) 0 ⟨0, maxline + 1⟩) 1 ⟨maxline + 1, 0⟩, rbam := ⟨0, 1, 2, dim, 1, dim - 2⟩, lockfailures := 0 } := by
    rw [cons_store_clean _ text 0 maxline hA hB1 hC1 hD1 hE1]
    try dsimp only
    rw [hw0]
    simp [updFn]
  have hstore2 : cons_store { buf := updByte (memcpyBytes (fun _ => (0 : Nat)) 0 text 0 maxline) maxline 0, bufdim := bufdim, linelist := updFn (updFn (fun _ => (⟨0, 0⟩ : consline)) 0 ⟨0, maxline + 1⟩) 1 ⟨maxline + 1, 0⟩, rbam := ⟨0, 1, 2, dim, 1, dim - 2⟩, lockfailures := 0 } text maxline maxline = { buf := updByte (memcpyBytes (updByte (memcpyBytes (fun _ => (0 : Nat)) 0 text 0 maxline) maxline 0) (maxline + 1) text maxline maxline) (maxline + 1 + (maxline + 1) - 1) 0, bufdim := bufdim, linelist := updFn (updFn (updFn (updFn (fun _ => (⟨0, 0⟩ : consline)) 0 ⟨0, maxline + 1⟩) 1 ⟨maxline + 1, 0⟩) 1 ⟨maxline + 1, maxline + 1⟩) 2 ⟨maxline + 1 + (maxline + 1), 0⟩, rbam := ⟨0, 2, 3, dim, 2, dim - 3⟩, lockfailures := 0 } := by
    rw [cons_store_clean _ text maxline maxline hA hB2 hC2 hD2 hE2]
    try dsimp only
    rw [hw1]
    simp [updFn]
  have hstore3 : cons_store { buf := updByte (memcpyBytes (updByte (memcpyBytes (fun _ => (0 : Nat)) 0 text 0 maxline) maxline 0) (maxline + 1) text maxline maxline) (maxline + 1 + (maxline + 1) - 1) 0, bufdim := bufdim, linelist := updFn (updFn (updFn (updFn (fun _ => (⟨0, 0⟩ : consline)) 0 ⟨0, maxline + 1⟩) 1 ⟨maxline + 1, 0⟩) 1 ⟨maxline + 1, maxline + 1⟩) 2 ⟨maxline + 1 + (maxline + 1), 0⟩, rbam := ⟨0, 2, 3, dim, 2, dim - 3⟩, lockfailures := 0 } text (maxline + maxline) maxline = { buf := updByte (memcpyBytes (updByte (memcpyBytes (updByte (memcpyBytes (fun _ => (0 : Nat)) 0 text 0 maxline) maxline 0) (maxline + 1) text maxline maxline) (maxline + 1 + (maxline + 1) - 1) 0) (maxline + 1 + (maxline + 1)) text (maxline + maxline) maxline) (maxline + 1 + (maxline + 1) + (maxline + 1) - 1) 0, bufdim := bufdim, linelist := updFn (updFn (updFn (updFn (updFn (updFn (fun _ => (⟨0, 0⟩ : consline)) 0 ⟨0, maxline + 1⟩) 1 ⟨maxline + 1, 0⟩) 1 ⟨maxline + 1, maxline + 1⟩) 2 ⟨maxline + 1 + (maxline + 1), 0⟩) 2 ⟨maxline + 1 + (maxline + 1), maxline + 1⟩) 3 ⟨maxline + 1 + (maxline + 1) + (maxline + 1), 0⟩, rbam := ⟨0, 3, 4, dim, 3, dim - 4⟩, lockfailures := 0 } := by
    rw [cons_store_clean _ text (maxline + maxline) maxline hA hB3 hC3 hD3 hE3]
    try dsimp only
    rw [hw2]
    simp [updFn]
  have hscan1 : cons_scan text maxline (3 * maxline) 0 0 =
      (3 * maxline, maxline, maxline) := by
    have h := cons_scan_no_term text maxline (3 * maxline) maxline 0 0
      (by omega) (by omega) (fun j h1 h2 => htext j (by omega))
    simpa using h
  have hscan2 : cons_scan text maxline (3 * maxline) maxline 0 =
      (3 * maxline, maxline + maxline, maxline) := by
    exact cons_scan_no_term text maxline (3 * maxline) maxline 0 maxline
      (by omega) (by omega) (fun j h1 h2 => htext j (by omega))
  have hscan3 : cons_scan text maxline (3 * maxline) (maxline + maxline) 0 =
      (3 * maxline, maxline + maxline + maxline, maxline) := by
    exact cons_scan_no_term text maxline (3 * maxline) maxline 0
      (maxline + maxline) (by omega) (by omega)
      (fun j h1 h2 => htext j (by omega))
  have hloop : cons_loop { buf := (fun _ => (0 : Nat)), bufdim := bufdim, linelist := (fun _ => (⟨0, 0⟩ : consline)), rbam := ⟨0, 0, 1, dim, 0, dim - 1⟩, lockfailures := 0 } text maxline 0 (3 * maxline) =
      ({ buf := updByte (memcpyBytes (updByte (memcpyBytes (updByte (memcpyBytes (fun _ => (0 : Nat)) 0 text 0 maxline) maxline 0) (maxline + 1) text maxline maxline) (maxline + 1 + (maxline + 1) - 1) 0) (maxline + 1 + (maxline + 1)) text (maxline + maxline) maxline) (maxline + 1 + (maxline + 1) + (maxline + 1) - 1) 0, bufdim := bufdim, linelist := updFn (updFn (updFn (updFn (updFn (updFn (fun _ => (⟨0, 0⟩ : consline)) 0 ⟨0, maxline + 1⟩) 1 ⟨maxline + 1, 0⟩) 1 ⟨maxline + 1, maxline + 1⟩) 2 ⟨maxline + 1 + (maxline + 1), 0⟩) 2 ⟨maxline + 1 + (maxline + 1), maxline + 1⟩) 3 ⟨maxline + 1 + (maxline + 1) + (maxline + 1), 0⟩, rbam := ⟨0, 3, 4, dim, 3, dim - 4⟩, lockfailures := 0 }, 3 * maxline) := by
    rw [cons_loop, if_pos (show 0 < 3 * maxline by omega)]
    try dsimp only
    rw [hscan1]
    try dsimp only
    rw [dif_pos (show 3 * maxline - maxline < 3 * maxline - 0 by omega)]
    try dsimp only
    rw [hstore1]
    rw [cons_loop, if_pos (show maxline < 3 * maxline by omega)]
    try dsimp only
    rw [hscan2]
    try dsimp only
    rw [dif_pos (show 3 * maxline - (maxline + maxline) <
      3 * maxline - maxline by omega)]
    try dsimp only
    rw [hstore2]
    rw [cons_loop, if_pos (show maxline + maxline < 3 * maxline by omega)]
    try dsimp only
    rw [hscan3]
    try dsimp only
    rw [dif_pos (show 3 * maxline - (maxline + maxline + maxline) <
      3 * maxline - (maxline + maxline) by omega)]
    try dsimp only
    rw [hstore3]
    rw [cons_loop, if_neg (show ¬ maxline + maxline + maxline < 3 * maxline
      by omega)]
  have hres : console_write true true maxline (cons_init bufdim dim) text
      (3 * maxline) = ({ buf := updByte (memcpyBytes (updByte (memcpyBytes (updByte (memcpyBytes (fun _ => (0 : Nat)) 0 text 0 maxline) maxline 0) (maxline + 1) text maxline maxline) (maxline + 1 + (maxline + 1) - 1) 0) (maxline + 1 + (maxline + 1)) text (maxline + maxline) maxline) (maxline + 1 + (maxline + 1) + (maxline + 1) - 1) 0, bufdim := bufdim, linelist := updFn (updFn (updFn (updFn (updFn (updFn (fun _ => (⟨0, 0⟩ : consline)) 0 ⟨0, maxline + 1⟩) 1 ⟨maxline + 1, 0⟩) 1 ⟨maxline + 1, maxline + 1⟩) 2 ⟨maxline + 1 + (maxline + 1), 0⟩) 2 ⟨maxline + 1 + (maxline + 1), maxline + 1⟩) 3 ⟨maxline + 1 + (maxline + 1) + (maxline + 1), 0⟩, rbam := ⟨0, 3, 4, dim, 3, dim - 4⟩, lockfailures := 0 }, 3 * maxline) := by
    have h00 : ¬ (3 * maxline = 0 ∨ text 0 = 0) := by
      intro h
      rcases h with h | h
      · omega
      · exact htext 0 (by omega) (Or.inl h)
    rw [console_write, if_neg h00]
    try dsimp only
    rw [if_neg (show ¬ maxline * 4 < 3 * maxline by omega)]
    rw [hpd0]
    exact hloop
  rw [hres]
  dsimp only
  refine ⟨?_, ?_, ?_⟩
  · have hq0 : (0 : Nat) % dim = 0 := Nat.mod_eq_of_lt (by omega)
    have hq1 : (1 : Nat) % dim = 1 := Nat.mod_eq_of_lt (by omega)
    have hq2 : (2 : Nat) % dim = 2 := Nat.mod_eq_of_lt (by omega)
    simp [liveList, liveOf, List.range_succ, hq0, hq1, hq2, updFn]
    omega
  · intro k hk i hi
    interval_cases k <;>
      simp only [updByte, memcpyBytes, Nat.zero_mul, Nat.one_mul,
        Nat.zero_add] <;>
      split_ifs <;>
      first
        | (exfalso; omega)
        | (congr 1; omega)
        | rfl
  · intro k hk
    interval_cases k <;>
      simp only [updByte, memcpyBytes, Nat.zero_mul, Nat.one_mul,
        Nat.zero_add] <;>
      split_ifs <;>
      first
        | (exfalso; omega)
        | (congr 1; omega)
        | rfl

/-- C8 witness at a concrete instance. -/
theorem claim_C8_witness :
    liveList (console_write true true 1 (cons_init 6 5) (fun _ => 65)
        (3 * 1)).1 =
      [⟨0, 1 + 1⟩, ⟨1 + 1, 1 + 1⟩, ⟨2 * (1 + 1), 1 + 1⟩] ∧
    (∀ k, k < 3 → ∀ i, i < 1 →
      (console_write true true 1 (cons_init 6 5) (fun _ => 65)
        (3 * 1)).1.buf (k * (1 + 1) + i) = (fun _ => (65 : Nat)) (k * 1 + i)) ∧
    (∀ k, k < 3 →
      (console_write true true 1 (cons_init 6 5) (fun _ => 65)
        (3 * 1)).1.buf (k * (1 + 1) + 1) = 0) :=
  claim_C8 6 5 1 (fun _ => 65) (by decide) (by decide) (by decide) (by decide)
